import Mathlib

/-!
Verification development for the showboat document tool.

Go strings are modelled as `List Char` (all structural delimiters in the
format are ASCII, so byte positions and character positions of every
pattern occurrence coincide, and slicing at occurrence boundaries yields
the same strings).  Files:

* `markdown/blocks.go`   → `Showboat.Block`
* `markdown/writer.go`   → `Showboat.writeBlock`, `Showboat.Write`, `Showboat.fenceFor`
* `markdown/parser.go`   → `Showboat.Parse` (with `goLines` modelling
  `bufio.Scanner`/`ScanLines`: split at newlines, strip one trailing
  carriage return per line, no final empty line for newline-terminated
  input)
* `cmd/pop.go`           → `Showboat.Pop`
* `cmd/build.go`         → `Showboat.ExecFS`, `Showboat.NoteFS`
* `exec/runner.go`       → `Showboat.runModel` (subprocess execution is
  abstracted by a `ProcResult` oracle: the combined output and exit code
  of the started process, or a start failure)
* `verify.go`            → `Showboat.verifyLoop`, `Showboat.VerifyFS`
-/

namespace Showboat

/-- Go strings, modelled as lists of characters. -/
abbrev Str := List Char

/-- The backtick character (written via its code point to keep source plain). -/
def tick : Char := Char.ofNat 96

/-- The single-quote character. -/
def sq : Char := Char.ofNat 39

/-- The backslash character. -/
def bsl : Char := Char.ofNat 92

/-- String has no newline character. -/
def noNL (s : Str) : Prop := '\n' ∉ s

instance (s : Str) : Decidable (noNL s) := inferInstanceAs (Decidable (¬ _))

/-- String ends with a carriage return. -/
def endsCR (s : Str) : Prop := s.getLast? = some '\r'

instance (s : Str) : Decidable (endsCR s) := inferInstanceAs (Decidable (_ = _))

/-- Model of `dropCR` in `bufio.ScanLines`: strip one trailing carriage return. -/
def dropCR (s : Str) : Str := if s.getLast? = some '\r' then s.dropLast else s

/-- Accumulator-based splitting of a character stream into scanner lines.
The accumulator holds the current (unfinished) line in reverse. -/
def goLinesA : Str → Str → List Str
  | [], acc => if acc.isEmpty then [] else [dropCR acc.reverse]
  | c :: t, acc => if c = '\n' then dropCR acc.reverse :: goLinesA t [] else goLinesA t (c :: acc)

/-- Model of reading all lines with `bufio.Scanner` + `ScanLines` (parser.go
lines 12-16): split at newlines, strip a trailing carriage return from each
line, do not produce a final empty line when the input ends with a newline,
and produce no lines at all for empty input. -/
def goLines (s : Str) : List Str := goLinesA s []

/-- Split a string at every newline; always returns at least one piece
(model of Go `strings.Split(s, "\n")`). -/
def splitNL : Str → List Str
  | [] => [[]]
  | c :: t =>
    if c = '\n' then [] :: splitNL t
    else
      match splitNL t with
      | [] => [[c]]
      | h :: r => (c :: h) :: r

/-- Join pieces, terminating every piece with a newline. -/
def joinNL : List Str → Str
  | [] => []
  | p :: r => p ++ '\n' :: joinNL r

/-- Join pieces with newline separators (model of Go `strings.Join(l, "\n")`). -/
def intercalateNL : List Str → Str
  | [] => []
  | [p] => p
  | p :: r => p ++ '\n' :: intercalateNL r

/-- Boolean prefix test (model of Go `strings.HasPrefix`). -/
def isPre : Str → Str → Bool
  | [], _ => true
  | _ :: _, [] => false
  | a :: as, b :: bs => a == b && isPre as bs

/-- Boolean suffix test (model of Go `strings.HasSuffix`). -/
def isSuf (p s : Str) : Bool := isPre p.reverse s.reverse

/-- Index of the first occurrence of `pat` in `s` (model of Go
`strings.Index`, with `none` for -1). -/
def indexOfSub : Str → Str → Option Nat
  | s, pat =>
    if isPre pat s then some 0
    else
      match s with
      | [] => none
      | _ :: t => (indexOfSub t pat).map (· + 1)

/-- Model of Go `strings.TrimPrefix`. -/
def trimPreL (p s : Str) : Str := if isPre p s then s.drop p.length else s

/-- Model of Go `strings.TrimSuffix`. -/
def trimSufL (p s : Str) : Str := if isSuf p s then s.take (s.length - p.length) else s

/-- Model of Go `strings.Trim(s, "*")`: remove all leading and trailing asterisks. -/
def trimStars (s : Str) : Str := ((s.dropWhile (· == '*')).reverse.dropWhile (· == '*')).reverse

/-- Length of the run of backticks at the start of a line
(the counting loop in parser.go lines 68-75 and writer.go lines 62-69). -/
def leadTicks (l : Str) : Nat := (l.takeWhile (· == tick)).length

/- Literal fragments of the document format. -/

/-- The title-line marker. -/
def hashSp : Str := "# ".data

/-- Three backticks, the minimal fence. -/
def fence3 : Str := "```".data

/-- The info string of an output fence. -/
def outWord : Str := "output".data

/-- The image annotation suffix. -/
def imgSuf : Str := " {image}".data

/-- The server annotation suffix. -/
def srvSuf : Str := " {server}".data

/-- The filter annotation opener. -/
def filtPre : Str := " \x7bfilter=".data

/-- A closing brace. -/
def closeBr : Str := "\x7d".data

/-- The dateline separator between timestamp and version. -/
def bySB : Str := " by Showboat ".data

/-- The document-id comment opener. -/
def docPre : Str := "<!-- showboat-id: ".data

/-- The document-id comment closer. -/
def docSuf : Str := " -->".data

/-- A single asterisk. -/
def star1 : Str := "*".data

/-- The image-reference line opener. -/
def bang2 : Str := "![".data

/-- The bracket-paren separator of an image reference. -/
def brParen : Str := "](".data

/-- A closing parenthesis. -/
def parenR : Str := ")".data

/-! ## Document model (markdown/blocks.go)

One variant per concrete block struct.  The field set is the union used by
the parser and writer: `TitleBlock{Title, Timestamp, Version, DocumentID}`,
`CommentaryBlock{Text}`, `CodeBlock{Lang, Code, IsImage, IsServer, Filter}`,
`OutputBlock{Content}`, `ImageOutputBlock{AltText, Filename}`. -/

inductive Block where
  | title (titleText timestamp version documentID : Str)
  | commentary (text : Str)
  | code (lang codeText : Str) (isImage isServer : Bool) (filterName : Str)
  | output (content : Str)
  | imageOutput (altText filename : Str)
deriving DecidableEq, Repr

instance : Inhabited Block := ⟨Block.commentary []⟩

/-! ## Writer (markdown/writer.go) -/

/-- Longest backtick run starting a line of `content`
(the scanning loop of `fenceFor`, writer.go lines 60-73). -/
def maxTickRun (content : Str) : Nat := ((splitNL content).map leadTicks).foldr max 0

/-- Model of `fenceFor` (writer.go lines 59-79): a fence of at least three
backticks, longer than every backtick run starting a line of `content`. -/
def fenceFor (content : Str) : Str :=
  List.replicate (if maxTickRun content ≥ 3 then maxTickRun content + 1 else 3) tick

/-- The dateline of a title block: `Timestamp`, with ` by Showboat Version`
appended when the version is nonempty (writer.go lines 27-30). -/
def dlOf (ts v : Str) : Str := if v = [] then ts else ts ++ bySB ++ v

/-- Model of `writeBlock` (writer.go lines 24-55).  Note: this writer emits
neither the document id of a title block nor the filter annotation of a code
block, and marks a code block `{server}` only when it is not `{image}`. -/
def writeBlock : Block → Str
  | .title t ts v _ => hashSp ++ t ++ '\n' :: '\n' :: '*' :: (dlOf ts v ++ '*' :: ['\n'])
  | .commentary x => x ++ ['\n']
  | .code lang cd isImg isSrv _ =>
      fence3 ++ (lang ++ (if isImg then imgSuf else if isSrv then srvSuf else []))
        ++ '\n' :: (cd ++ '\n' :: (fence3 ++ ['\n']))
  | .output c => (fenceFor c ++ outWord) ++ '\n' :: (c ++ (fenceFor c ++ ['\n']))
  | .imageOutput alt fn => '!' :: '[' :: (alt ++ ']' :: '(' :: (fn ++ [')', '\n']))

/-- Model of `Write` (writer.go lines 10-22): the blocks in order, with one
extra blank separator line between consecutive blocks. -/
def Write : List Block → Str
  | [] => []
  | [b] => writeBlock b
  | b :: bs => writeBlock b ++ '\n' :: Write bs

/-! ## Parser (markdown/parser.go) -/

/-- Model of `parseImageRef` (parser.go lines 164-182). -/
def parseImageRef (line : Str) : Str × Str :=
  match indexOfSub line bang2 with
  | none => ([], [])
  | some start =>
    let rest := line.drop (start + 2)
    match indexOfSub rest brParen with
    | none => ([], [])
    | some cb =>
      let alt := rest.take cb
      let rest2 := rest.drop (cb + 2)
      match indexOfSub rest2 parenR with
      | none => (alt, [])
      | some cp => (alt, rest2.take cp)

/-- A line at which a commentary run stops: a fence opener or a valid image
reference (parser.go lines 138-146). -/
def lineStops (l : Str) : Bool :=
  isPre fence3 l || (isPre bang2 l && !(parseImageRef l).2.isEmpty)

/-- Model of `skipSeparator` (parser.go lines 25-29): consume one blank line. -/
def skipSep : List Str → List Str
  | [] :: t => t
  | ls => ls

/-- Drop trailing blank lines of a commentary run (parser.go lines 151-153). -/
def dropTrailingBlanks (ls : List Str) : List Str :=
  (ls.reverse.dropWhile (fun l => l.isEmpty)).reverse

/-- Title parsing after the `# ` line (parser.go lines 34-60): skip one blank
line, read the optional `*timestamp[ by Showboat version]*` line, read the
optional document-id comment line.  Returns the block and the unconsumed
lines. -/
def titleParse (t : Str) (rest : List Str) : Block × List Str :=
  let rest1 := match rest with
    | [] :: r => r
    | _ => rest
  let tsr : Str × Str × List Str :=
    match rest1 with
    | l :: r =>
      if isPre star1 l && isSuf star1 l then
        let dl := trimStars l
        match indexOfSub dl bySB with
        | some idx => (dl.take idx, dl.drop (idx + bySB.length), r)
        | none => (dl, [], r)
      else ([], [], rest1)
    | [] => ([], [], rest1)
  let dr : Str × List Str :=
    match tsr.2.2 with
    | l :: r =>
      if isPre docPre l && isSuf docSuf l then (trimSufL docSuf (trimPreL docPre l), r)
      else ([], tsr.2.2)
    | [] => ([], tsr.2.2)
  (.title t tsr.1 tsr.2.1 dr.1, dr.2)

/-- Fenced-block parsing (parser.go lines 66-119): count the opening
backticks, take lines up to a line equal to the same-width closing fence,
build an output block when the info string is exactly `output`, otherwise a
code block with `{image}` and `{filter=...}` annotations extracted.
Returns the block and the unconsumed lines (the closing fence consumed). -/
def fenceParse (l : Str) (rest : List Str) : Block × List Str :=
  let ticks := leadTicks l
  let closing : Str := List.replicate ticks tick
  let info := l.drop ticks
  let body := rest.takeWhile (fun x => x ≠ closing)
  let rest2 := (rest.dropWhile (fun x => x ≠ closing)).drop 1
  if info = outWord then
    (.output (joinNL body), rest2)
  else
    let li : Str × Bool := if isSuf imgSuf info then (trimSufL imgSuf info, true) else (info, false)
    let lf : Str × Str :=
      match indexOfSub li.1 filtPre with
      | some idx =>
        let suffix := li.1.drop (idx + filtPre.length)
        match indexOfSub suffix closeBr with
        | some e => (li.1.take idx ++ suffix.drop (e + 1), suffix.take e)
        | none => (li.1, [])
      | none => (li.1, [])
    (.code lf.1 (intercalateNL body) li.2 false lf.2, rest2)

/-- The main parsing loop (parser.go lines 21-157), structurally recursive on
a fuel bound.  One unit of fuel is one iteration of the Go `for` loop; since
every iteration consumes at least one line, any fuel exceeding the number of
lines is enough (`Parse` below supplies it).  `bempty` models the
`len(blocks) == 0` test guarding the title branch. -/
def parseLoop : Nat → List Str → Bool → List Block
  | 0, _, _ => []
  | _ + 1, [], _ => []
  | fuel + 1, l :: rest, bempty =>
    if bempty && isPre hashSp l then
      let pr := titleParse (l.drop 2) rest
      pr.1 :: parseLoop fuel (skipSep pr.2) false
    else if isPre fence3 l then
      let pr := fenceParse l rest
      pr.1 :: parseLoop fuel (skipSep pr.2) false
    else if isPre bang2 l && !(parseImageRef l).2.isEmpty then
      .imageOutput (parseImageRef l).1 (parseImageRef l).2 :: parseLoop fuel (skipSep rest) false
    else
      let run := (l :: rest).takeWhile (fun p => !(lineStops p))
      let rest2 := (l :: rest).dropWhile (fun p => !(lineStops p))
      let trimmed := dropTrailingBlanks run
      (if trimmed.isEmpty then [] else [Block.commentary (intercalateNL trimmed)]) ++
        parseLoop fuel rest2 (bempty && trimmed.isEmpty)

/-- Model of `Parse` (parser.go lines 11-160).  The Go function returns an
error only when the `bufio.Scanner` reports an I/O error, which cannot happen
for in-memory input; the parsing logic itself is total. -/
def Parse (s : Str) : List Block := parseLoop ((goLines s).length + 1) (goLines s) true

/-! ## Document operations (cmd/pop.go, cmd/build.go, exec/runner.go, verify) -/

/-- Errors surfaced by the document operations. -/
inductive OpErr where
  | fileNotFound
  | runFailed
  | popEmpty
  | popOnlyTitle
deriving DecidableEq, Repr

/-- Block is a `TitleBlock`. -/
def isTitleB : Block → Bool
  | .title _ _ _ _ => true
  | _ => false

/-- Block is an `OutputBlock` or an `ImageOutputBlock`. -/
def isOutputLike : Block → Bool
  | .output _ => true
  | .imageOutput _ _ => true
  | _ => false

/-- Model of `Pop` on the parsed block sequence (cmd/pop.go lines 13-45):
reject an empty document and a document holding only a title; when the last
block is an output or image-output remove the last two blocks (the last one
alone if the document somehow has a single block); otherwise remove the last
block. -/
def Pop (bs : List Block) : Except OpErr (List Block) :=
  if bs.isEmpty then .error .popEmpty
  else if bs.length == 1 && isTitleB bs.headI then .error .popOnlyTitle
  else
    match bs.getLast? with
    | some (Block.output _) | some (Block.imageOutput _ _) =>
      .ok (if 2 ≤ bs.length then bs.dropLast.dropLast else bs.dropLast)
    | _ => .ok bs.dropLast

/-- Outcome of launching a subprocess: either the process started and ran to
completion with some combined output and exit code, or it could not be
started at all.  This is the execution oracle abstracting `os/exec`. -/
inductive ProcResult where
  | exited (out : Str) (code : Nat)
  | startFailure
deriving DecidableEq, Repr

/-- Model of `Run` (exec/runner.go lines 15-35) on an oracle outcome: a
process that ran to completion yields its combined output and exit code with
no error (a non-zero exit code is not an error); a start failure yields an
error together with exit code 1 and empty output.  The `Bool` component is
`true` exactly when Go returns a non-nil error. -/
def runModel : ProcResult → Str × Nat × Bool
  | .exited out code => (out, code, false)
  | .startFailure => ([], 1, true)

/-- A file system: paths to contents. -/
def FS : Type := Str → Option Str

/-- Model of `writeBlocks` (cmd/build.go lines 99-107): create/truncate the
file with the serialized blocks. -/
def fsWrite (fs : FS) (p c : Str) : FS := fun q => if q = p then some c else fs q

/-- Model of `Exec` (cmd/build.go lines 27-52): fail when the file does not
exist; run the code through the oracle and fail when the process could not be
started; otherwise parse the file, append the code block and an output block
holding the captured output, rewrite the file, and return the output and exit
code. -/
def ExecFS (proc : ProcResult) (file lang cd : Str) (fs : FS) :
    Except OpErr (Str × Nat) × FS :=
  match fs file with
  | none => (.error .fileNotFound, fs)
  | some text =>
    match runModel proc with
    | (_, _, true) => (.error .runFailed, fs)
    | (out, ec, false) =>
      let blocks2 := Parse text ++ [Block.code lang cd false false [], Block.output out]
      (.ok (out, ec), fsWrite fs file (Write blocks2))

/-- Model of `Note` (cmd/build.go lines 14-23): parse the file, append a
commentary block, rewrite the file. -/
def NoteFS (file x : Str) (fs : FS) : Except OpErr Unit × FS :=
  match fs file with
  | none => (.error .fileNotFound, fs)
  | some text => (.ok (), fsWrite fs file (Write (Parse text ++ [Block.commentary x])))

/-- Model of `Pop` at the file level (cmd/pop.go): read, pop, rewrite. -/
def PopFS (file : Str) (fs : FS) : Except OpErr Unit × FS :=
  match fs file with
  | none => (.error .fileNotFound, fs)
  | some text =>
    match Pop (Parse text) with
    | .error e => (.error e, fs)
    | .ok bs => (.ok (), fsWrite fs file (Write bs))

/-- A verification mismatch (the `Diff` struct of verify.go lines 14-19). -/
structure Diff where
  blockIndex : Nat
  expected : Str
  actual : Str
deriving DecidableEq, Repr

/-- The verification pass of `VerifyWithPort` (verify.go lines 58-101), with
subprocess execution abstracted by the deterministic oracle `run` (so every
execution succeeds; the Go early returns on launch failure cannot fire).
Walks the blocks in order; image code blocks are skipped; server code blocks
are only started (collected in the second component); every other code block
is executed, and when the following block is an output block whose stored
content differs from the captured output a `Diff` is recorded and the output
block is replaced by the captured output.  Returns the diffs, the started
servers, and the (possibly updated) block sequence. -/
def verifyLoop (run : Str → Str → Str) : Nat → List Block → List Diff × List (Str × Str) × List Block
  | _, [] => ([], [], [])
  | i, Block.code lang cd true isSrv f :: rest =>
    let r := verifyLoop run (i + 1) rest
    (r.1, r.2.1, Block.code lang cd true isSrv f :: r.2.2)
  | i, Block.code lang cd false true f :: rest =>
    let r := verifyLoop run (i + 1) rest
    (r.1, (lang, cd) :: r.2.1, Block.code lang cd false true f :: r.2.2)
  | i, Block.code lang cd false false f :: Block.output oc :: rest2 =>
    let out := run lang cd
    let r := verifyLoop run (i + 2) rest2
    if oc ≠ out then
      (⟨i, oc, out⟩ :: r.1, r.2.1, Block.code lang cd false false f :: Block.output out :: r.2.2)
    else
      (r.1, r.2.1, Block.code lang cd false false f :: Block.output oc :: r.2.2)
  | i, Block.code lang cd false false f :: rest =>
    let r := verifyLoop run (i + 1) rest
    (r.1, r.2.1, Block.code lang cd false false f :: r.2.2)
  | i, b :: rest =>
    let r := verifyLoop run (i + 1) rest
    (r.1, r.2.1, b :: r.2.2)

/-- Model of `Verify`/`VerifyWithPort` at the file level (verify.go lines
41-110): read and parse the file, run the verification pass, and, when an
output path is supplied (nonempty), write the updated block sequence there.
The input file itself is never written. -/
def VerifyFS (run : Str → Str → Str) (file outputFile : Str) (fs : FS) :
    Except OpErr (List Diff) × FS :=
  match fs file with
  | none => (.error .fileNotFound, fs)
  | some text =>
    let r := verifyLoop run 0 (Parse text)
    if outputFile ≠ [] then (.ok r.1, fsWrite fs outputFile (Write r.2.2))
    else (.ok r.1, fs)

/-! ## Extractor (modelled from the spec)

The implementation file `cmd/extract.go` is not part of the sources; only its
unit tests (`cmd/extract_test.go`) and an early prototype are.  The
definitions below are therefore modelled from the specification (§4.6),
pinned by the unit tests where they are more precise. -/

/-- Characters that force shell quoting: whitespace, quotes, and the shell
metacharacters of the prototype set (space, tab, newline, single quote,
double quote, backslash, dollar). -/
def metaChars : Str := [' ', '\t', '\n', sq, '"', bsl, '$']

/-- Model of Go `strings.ReplaceAll` (pattern assumed nonempty, as in every
use here): replace each leftmost non-overlapping occurrence. -/
def replaceAll (s pat rep : Str) : Str :=
  match s with
  | [] => []
  | c :: t => if h : isPre pat (c :: t) ∧ pat ≠ [] then
                rep ++ replaceAll ((c :: t).drop pat.length) pat rep
              else c :: replaceAll t pat rep
termination_by s.length
decreasing_by
  · have hp := List.length_pos.mpr h.2
    simp only [List.length_drop, List.length_cons]
    omega
  · simp [List.length_cons]

/-- The replacement for a single quote inside a quoted argument: close the
quote, emit an escaped quote, reopen the quote. -/
def escRep : Str := [sq, bsl, sq, sq]

/-- Modelled from the spec: `shellQuote` of the missing `cmd/extract.go`.
Per §4.6 an argument is left unquoted when it contains none of
whitespace/quotes/shell metacharacters, otherwise single-quoted with internal
single quotes escaped by closing, inserting an escaped quote, and reopening;
per the unit test `TestExtractShellQuote` the empty string is quoted (to
`''`). -/
def shellQuote (s : Str) : Str :=
  if s.isEmpty || s.any (fun c => c ∈ metaChars) then
    sq :: (replaceAll s [sq] escRep ++ [sq])
  else s

/-- A space character. -/
def sp1 : Str := [' ']

/-- The word `showboat init ` opening an init command. -/
def cmdInit : Str := "showboat init ".data

/-- The word `showboat note ` opening a note command. -/
def cmdNote : Str := "showboat note ".data

/-- The word `showboat exec ` opening an exec command. -/
def cmdExec : Str := "showboat exec ".data

/-- The word `showboat image ` opening an image command. -/
def cmdImage : Str := "showboat image ".data

/-- Modelled from the spec: the command emitted for one block by the missing
`cmd/extract.go`.  Per §4.6, one command per Title/Commentary/Code block,
none for Output/ImageOutput blocks; command verbs per `TestExtract`
(`showboat init`, `showboat note`, `showboat exec`); every textual argument
shell-quoted. -/
def cmdFor (file : Str) : Block → Option Str
  | .title t _ _ _ => some (cmdInit ++ shellQuote file ++ sp1 ++ shellQuote t)
  | .commentary x => some (cmdNote ++ shellQuote file ++ sp1 ++ shellQuote x)
  | .code lang cd isImg _ _ =>
    some (if isImg then cmdImage ++ shellQuote file ++ sp1 ++ shellQuote cd
          else cmdExec ++ shellQuote file ++ sp1 ++ lang ++ sp1 ++ shellQuote cd)
  | .output _ => none
  | .imageOutput _ _ => none

/-- Modelled from the spec: `Extract` of the missing `cmd/extract.go`, as the
loop appending one command per block that emits one. -/
def Extract (file : Str) : List Block → List Str
  | [] => []
  | b :: rest =>
    match cmdFor file b with
    | some c => c :: Extract file rest
    | none => Extract file rest

/-- Block emits an extract command (Title, Commentary, or Code). -/
def emitsCmd : Block → Bool
  | .title _ _ _ _ => true
  | .commentary _ => true
  | .code _ _ _ _ _ => true
  | _ => false

/-- Character-by-character single-quote escaping, the specification-side
description of the quoted form: every single quote becomes
close-quote, escaped quote, reopen-quote. -/
def escSpec : Str → Str
  | [] => []
  | c :: t => (if c = sq then escRep else [c]) ++ escSpec t

/-! ## Specification-side descriptions of the verification pass -/

/-- The mismatch the specification predicts at position `j` of the block
list: a plain (non-image, non-server) code block at `j` whose adjacent
following block is an output block storing something other than the freshly
captured output; the pair is the stored (expected) and captured (actual)
content. -/
def pairMismatch (run : Str → Str → Str) (bs : List Block) (j : Nat) : Option (Str × Str) :=
  match bs[j]?, bs[j+1]? with
  | some (Block.code lang cd false false _), some (Block.output oc) =>
    if oc ≠ run lang cd then some (oc, run lang cd) else none
  | _, _ => none

/-- The mismatch at position `j`, as a `Diff` whose index is shifted by the
index `i` of the first block. -/
def diffAtI (run : Str → Str → Str) (i : Nat) (bs : List Block) (j : Nat) : Option Diff :=
  (pairMismatch run bs j).map fun p => ⟨i + j, p.1, p.2⟩

/-- All mismatches of a document, in document order, one candidate position
at a time. -/
def specDiffsI (run : Str → Str → Str) (i : Nat) (bs : List Block) : List Diff :=
  (List.range bs.length).filterMap (diffAtI run i bs)

/-- The mismatch list the specification predicts for a whole document. -/
def specDiffs (run : Str → Str → Str) (bs : List Block) : List Diff := specDiffsI run 0 bs

/-- The server blocks the specification predicts are started: every
non-image server code block, in document order. -/
def specServers (bs : List Block) : List (Str × Str) :=
  bs.filterMap fun b =>
    match b with
    | Block.code lang cd false true _ => some (lang, cd)
    | _ => none

/-- The block preceding position `j`, if any. -/
def prevOf (bs : List Block) : Nat → Option Block
  | 0 => none
  | j + 1 => bs[j]?

/-- What the verification pass leaves at a position holding `cur` whose
predecessor is `prev`: an output block adjacent to a plain code block holds
the freshly captured output; everything else is untouched. -/
def refreshed (run : Str → Str → Str) (prev : Option Block) (cur : Block) : Block :=
  match prev, cur with
  | some (Block.code lang cd false false _), Block.output _ => Block.output (run lang cd)
  | _, _ => cur

/-- Block is a non-image, non-server code block. -/
def isPlainCode : Block → Bool
  | .code _ _ false false _ => true
  | _ => false

/-- Block is an `OutputBlock` (image outputs excluded; this is the
`blocks[i+1].(markdown.OutputBlock)` type test of the verifier). -/
def isOutputB : Block → Bool
  | .output _ => true
  | _ => false

/-! ## Writer output as scanner lines

`blockLines b` is the line decomposition of `writeBlock b` for well-formed
blocks; `seqLines bs` the line decomposition of `Write bs`. -/

/-- The `# `-prefixed first line of a title block. -/
def titleLine (t : Str) : Str := hashSp ++ t

/-- The `*dateline*` line of a title block. -/
def starLine (ts v : Str) : Str := '*' :: (dlOf ts v ++ ['*'])

/-- The single line of an image-output block. -/
def imageLine (alt fn : Str) : Str := '!' :: '[' :: (alt ++ ']' :: '(' :: (fn ++ [')']))

/-- The content lines of an output block (its newline-terminated content,
one piece per newline). -/
def outPieces (c : Str) : List Str := if c = [] then [] else splitNL c.dropLast

/-- The info suffix of a code block's opening fence. -/
def annSuf (isImg isSrv : Bool) : Str := if isImg then imgSuf else if isSrv then srvSuf else []

/-- The lines `writeBlock` produces for a block. -/
def blockLines : Block → List Str
  | .title t ts v _ => [titleLine t, [], starLine ts v]
  | .commentary x => splitNL x
  | .code lang cd isImg isSrv _ =>
      (fence3 ++ (lang ++ annSuf isImg isSrv)) :: (splitNL cd ++ [fence3])
  | .output c => (fenceFor c ++ outWord) :: (outPieces c ++ [fenceFor c])
  | .imageOutput alt fn => [imageLine alt fn]

/-- The lines `Write` produces: the blocks' lines with one blank separator
line between consecutive blocks. -/
def seqLines : List Block → List Str
  | [] => []
  | [b] => blockLines b
  | b :: bs => blockLines b ++ [] :: seqLines bs

/-! ## Well-formed (writer-canonical) blocks

`wf bs` carves out the block sequences on which writing and re-parsing is
lossless.  Every condition is forced by some way the parser or the scanner
can diverge from the writer: embedded newlines or trailing carriage returns
in single-line fields, content lines that collide with fence or image or
title syntax, the annotations the writer of this snapshot does not emit
(document ids, filters, `{server}` on its own), adjacent commentary blocks
(which the parser merges), and titles after position 0 (which the parser
reads as commentary). -/

/-- Well-formedness of a single block. -/
def wfB : Block → Prop
  | .title t ts v d =>
      noNL t ∧ ¬ endsCR t ∧ noNL ts ∧ noNL v ∧ d = [] ∧
      (dlOf ts v).head? ≠ some '*' ∧ (dlOf ts v).getLast? ≠ some '*' ∧
      indexOfSub (dlOf ts v) bySB = (if v = [] then none else some ts.length)
  | .commentary x =>
      x ≠ [] ∧ (splitNL x).getLast? ≠ some [] ∧
      ∀ p ∈ splitNL x, ¬ endsCR p ∧ lineStops p = false
  | .code lang cd isImg isSrv fn =>
      isSrv = false ∧ fn = [] ∧ noNL lang ∧ ¬ endsCR lang ∧
      lang.head? ≠ some tick ∧ indexOfSub lang filtPre = none ∧
      (isImg = true ∨ (lang ≠ outWord ∧ isSuf imgSuf lang = false)) ∧
      ∀ p ∈ splitNL cd, ¬ endsCR p ∧ p ≠ fence3
  | .output c =>
      joinNL (outPieces c) = c ∧ ∀ p ∈ outPieces c, ¬ endsCR p
  | .imageOutput alt fn =>
      noNL alt ∧ noNL fn ∧ fn ≠ [] ∧
      indexOfSub (alt ++ ']' :: '(' :: (fn ++ [')'])) brParen = some alt.length ∧
      indexOfSub (fn ++ [')']) parenR = some fn.length

instance : (b : Block) → Decidable (wfB b)
  | .title _ _ _ _ => inferInstanceAs (Decidable (_ ∧ _))
  | .commentary _ => inferInstanceAs (Decidable (_ ∧ _))
  | .code _ _ _ _ _ => inferInstanceAs (Decidable (_ ∧ _))
  | .output _ => inferInstanceAs (Decidable (_ ∧ _))
  | .imageOutput _ _ => inferInstanceAs (Decidable (_ ∧ _))

/-- Block whose first written line stops a commentary run (a fence opener or
an image reference). -/
def stopStartB : Block → Prop
  | .code _ _ _ _ _ => True
  | .output _ => True
  | .imageOutput _ _ => True
  | _ => False

instance : (b : Block) → Decidable (stopStartB b)
  | .title _ _ _ _ => inferInstanceAs (Decidable False)
  | .commentary _ => inferInstanceAs (Decidable False)
  | .code _ _ _ _ _ => inferInstanceAs (Decidable True)
  | .output _ => inferInstanceAs (Decidable True)
  | .imageOutput _ _ => inferInstanceAs (Decidable True)

/-- Block is a commentary block. -/
def isCommentaryB : Block → Bool
  | .commentary _ => true
  | _ => false

/-- Adjacency constraint: no block after position 0 may be a title, and a
commentary block must be followed by a fence or image block (otherwise the
parser would merge the neighbours into one commentary run). -/
def sepOk (b1 b2 : Block) : Prop :=
  isTitleB b2 = false ∧ (isCommentaryB b1 = true → stopStartB b2)

instance (b1 b2 : Block) : Decidable (sepOk b1 b2) := inferInstanceAs (Decidable (_ ∧ _))

/-- The adjacency constraint along the whole sequence. -/
def wfChain : List Block → Prop
  | [] => True
  | [_] => True
  | a :: b :: t => sepOk a b ∧ wfChain (b :: t)

instance wfChainDec : (bs : List Block) → Decidable (wfChain bs)
  | [] => inferInstanceAs (Decidable True)
  | [_] => inferInstanceAs (Decidable True)
  | _ :: b :: t => @And.decidable _ _ _ (wfChainDec (b :: t))

/-- A commentary block opening the document must not look like a title line
(the parser's title branch fires only on the very first block). -/
def headOk : List Block → Prop
  | Block.commentary x :: _ => isPre hashSp ((splitNL x).headI) = false
  | _ => True

instance : (bs : List Block) → Decidable (headOk bs)
  | [] => inferInstanceAs (Decidable True)
  | Block.title _ _ _ _ :: _ => inferInstanceAs (Decidable True)
  | Block.commentary _ :: _ => inferInstanceAs (Decidable (_ = _))
  | Block.code _ _ _ _ _ :: _ => inferInstanceAs (Decidable True)
  | Block.output _ :: _ => inferInstanceAs (Decidable True)
  | Block.imageOutput _ _ :: _ => inferInstanceAs (Decidable True)

/-- Sequence does not begin with a title block (the parser's title branch is
closed once a block has been produced). -/
def noTitleHead : List Block → Prop
  | Block.title _ _ _ _ :: _ => False
  | _ => True

instance : (bs : List Block) → Decidable (noTitleHead bs)
  | [] => inferInstanceAs (Decidable True)
  | Block.title _ _ _ _ :: _ => inferInstanceAs (Decidable False)
  | Block.commentary _ :: _ => inferInstanceAs (Decidable True)
  | Block.code _ _ _ _ _ :: _ => inferInstanceAs (Decidable True)
  | Block.output _ :: _ => inferInstanceAs (Decidable True)
  | Block.imageOutput _ _ :: _ => inferInstanceAs (Decidable True)

/-- Writer-canonical block sequences. -/
def wf (bs : List Block) : Prop := (∀ b ∈ bs, wfB b) ∧ wfChain bs ∧ headOk bs

instance (bs : List Block) : Decidable (wf bs) := inferInstanceAs (Decidable (_ ∧ _))

/-! ## Concrete documents for witnesses and counterexamples -/

/-- A title block as `init` creates it. -/
def exTitle : Block := Block.title "Demo".data "2026-01-01T00:00:00Z".data "0.1".data []

/-- A commentary block as `note` creates it. -/
def exNote : Block := Block.commentary "hello world".data

/-- A code block as `exec` creates it. -/
def exCode : Block := Block.code "bash".data "echo hi".data false false []

/-- The output block paired with `exCode`. -/
def exOut : Block := Block.output "hi\n".data

/-- A small well-formed document: init, note, exec. -/
def exDoc : List Block := [exTitle, exNote, exCode, exOut]

/-- A commentary block whose text is a bare fence line (as `note` can
produce). -/
def tickNote : Block := Block.commentary fence3

/-- A document `init` + `note` can produce on which the round trip fails. -/
def cexDoc : List Block := [exTitle, tickNote]

/-- An input whose width-4 output fence is never closed. -/
def untermText : Str := "````output\nx".data

/-- The line `x`, sole content line of `untermText`. -/
def lineX : Str := "x".data

/-- Output content with lines beginning with one, two and three backticks;
its longest run is three, so the writer must pick a four-tick fence. -/
def c2content : Str := "`x\n``\n```\n".data

/-- A sample document path. -/
def sampleFile : Str := "demo.md".data

/-- A second, distinct path. -/
def sampleOther : Str := "other.md".data

/-- A one-file file system holding the sample document. -/
def fsOne : FS := fun p => if p = sampleFile then some (Write exDoc) else none

/-- An execution oracle that always prints `hi`. -/
def runHi : Str → Str → Str := fun _ _ => "hi\n".data

/-- The output of the spec's exit-code example. -/
def failOut : Str := "fail\n".data

/-- The code of the spec's exit-code example. -/
def cmd42 : Str := "echo fail && exit 42".data

/-- The language of the examples. -/
def bashL : Str := "bash".data

/-- An empty file system. -/
def emptyFS : FS := fun _ => none

/-- A word with no shell metacharacters. -/
def helloW : Str := "hello".data

/-- A phrase with a space, needing quoting. -/
def spacedW : Str := "hello world".data

/-!
# Theorems
-/

/-! ## Pop (claims C6 and C10) -/

theorem pop_concat_two (bs : List Block) (b ob : Block) (h : isOutputLike ob = true) :
    Pop (bs ++ [b, ob]) = .ok bs := by
  have hsplit : bs ++ [b, ob] = (bs ++ [b]) ++ [ob] := by simp
  have hne : (bs ++ [b, ob]).isEmpty = false := by simp
  have hlast : (bs ++ [b, ob]).getLast? = some ob := by
    rw [hsplit]; exact List.getLast?_concat _
  have hdl : (bs ++ [b, ob]).dropLast.dropLast = bs := by
    rw [hsplit, List.dropLast_concat, List.dropLast_concat]
  have hlen : (bs ++ [b, ob]).length = bs.length + 2 := by simp
  have hlen1 : ((bs ++ [b, ob]).length == 1) = false := by
    simp [hlen]
  have h2 : 2 ≤ (bs ++ [b, ob]).length := by omega
  unfold Pop
  rw [hne, hlen1, hlast]
  cases ob with
  | output c => simp [h2, hdl]
  | imageOutput a f => simp [h2, hdl]
  | title t ts v d => simp [isOutputLike] at h
  | commentary x => simp [isOutputLike] at h
  | code a b c d e => simp [isOutputLike] at h

theorem pop_concat_one (bs : List Block) (b : Block) (hob : isOutputLike b = false)
    (ht : ¬ (bs = [] ∧ isTitleB b = true)) :
    Pop (bs ++ [b]) = .ok bs := by
  have hne : (bs ++ [b]).isEmpty = false := by simp
  have hlast : (bs ++ [b]).getLast? = some b := List.getLast?_concat _
  have hdl : (bs ++ [b]).dropLast = bs := List.dropLast_concat
  have hlen1 : ((bs ++ [b]).length == 1 && isTitleB (bs ++ [b]).headI) = false := by
    cases bs with
    | nil =>
      simp only [List.nil_append, List.length_singleton, beq_self_eq_true, Bool.true_and]
      have : ¬ isTitleB b = true := fun hh => ht ⟨rfl, hh⟩
      simpa using this
    | cons x xs => simp [List.length_append]
  unfold Pop
  rw [hne, hlen1, hlast]
  cases b with
  | output c => simp [isOutputLike] at hob
  | imageOutput a f => simp [isOutputLike] at hob
  | title t ts v d => simp [hdl]
  | commentary x => simp [hdl]
  | code a b c d e => simp [hdl]

theorem pop_title_only (t ts v d : Str) :
    Pop [Block.title t ts v d] = .error OpErr.popOnlyTitle := by
  unfold Pop
  simp [isTitleB]

/-- Claim C6: `Pop` removes the trailing logical entry: a trailing output or
image-output block is removed together with the code block right before it
(exactly two blocks); any other trailing block is removed alone; a document
holding only a title block is rejected with an error. -/
theorem C6_pop_trailing_entry :
    (∀ (bs : List Block) (lang cd : Str) (isImg isSrv : Bool) (fn : Str) (ob : Block),
      isOutputLike ob = true →
      Pop (bs ++ [Block.code lang cd isImg isSrv fn, ob]) = .ok bs) ∧
    (∀ (bs : List Block) (b : Block), isOutputLike b = false →
      ¬ (bs = [] ∧ isTitleB b = true) → Pop (bs ++ [b]) = .ok bs) ∧
    (∀ t ts v d : Str, Pop [Block.title t ts v d] = .error OpErr.popOnlyTitle) :=
  ⟨fun bs lang cd isImg isSrv fn ob h => pop_concat_two bs _ ob h,
   fun bs b hob ht => pop_concat_one bs b hob ht,
   pop_title_only⟩

/-- Witness for C6 at concrete documents: popping after an exec removes the
code/output pair, popping after a note removes one block, popping a
title-only document errors. -/
theorem C6_pop_trailing_entry_witness :
    Pop [exTitle, exNote, exCode, exOut] = .ok [exTitle, exNote] ∧
    Pop [exTitle, exNote] = .ok [exTitle] ∧
    Pop [exTitle] = .error OpErr.popOnlyTitle :=
  ⟨C6_pop_trailing_entry.1 [exTitle, exNote] bashL ("echo hi".data) false false [] exOut
      (by decide),
   C6_pop_trailing_entry.2.1 [exTitle] exNote (by decide) (by decide),
   C6_pop_trailing_entry.2.2 _ _ _ _⟩

/-- Claim C10: when the final block is an output or image-output block and
the document has at least two blocks, `Pop` removes the final two blocks
whatever the kind of the next-to-last block is. -/
theorem C10_pop_two_unconditional (bs : List Block) (b ob : Block)
    (h : isOutputLike ob = true) :
    Pop (bs ++ [b, ob]) = .ok bs :=
  pop_concat_two bs b ob h

/-- Witness for C10: the block before the trailing output is removed even
when it is a commentary block, not a code block. -/
theorem C10_pop_two_unconditional_witness :
    Pop [exTitle, exNote, exOut] = .ok [exTitle] :=
  C10_pop_two_unconditional [exTitle] exNote exOut (by decide)

/-! ## Exec (claims C7 and C8) -/

/-- Claim C7: when the subprocess starts (running to completion with any
exit code), `Exec` returns the captured output and that exit code with no
error, and rewrites the document with the code block and the captured output
appended — the output is recorded regardless of the exit code. -/
theorem C7_exec_exit_passthrough (out : Str) (ec : Nat) (file lang cd text : Str) (fs : FS)
    (hf : fs file = some text) :
    (ExecFS (.exited out ec) file lang cd fs).1 = .ok (out, ec) ∧
    (ExecFS (.exited out ec) file lang cd fs).2 file =
      some (Write (Parse text ++ [Block.code lang cd false false [], Block.output out])) := by
  simp [ExecFS, hf, runModel, fsWrite]

/-- Witness for C7 at the spec's example: `echo fail && exit 42` captured as
`fail\n` with exit code 42; the result is `.ok` and the file records the
output. -/
theorem C7_exec_exit_passthrough_witness :
    fsOne sampleFile = some (Write exDoc) ∧
    (ExecFS (.exited failOut 42) sampleFile bashL cmd42 fsOne).1 = .ok (failOut, 42) ∧
    (ExecFS (.exited failOut 42) sampleFile bashL cmd42 fsOne).2 sampleFile =
      some (Write (Parse (Write exDoc) ++
        [Block.code bashL cmd42 false false [], Block.output failOut])) :=
  ⟨rfl,
   (C7_exec_exit_passthrough failOut 42 sampleFile bashL cmd42 (Write exDoc) fsOne rfl).1,
   (C7_exec_exit_passthrough failOut 42 sampleFile bashL cmd42 (Write exDoc) fsOne rfl).2⟩

/-- Claim C8: the mutating operations are atomic with respect to failures
while building their result: a missing/unreadable document or a subprocess
that fails to start aborts the operation with an error and leaves the file
system unchanged; in general every error outcome of `Exec`, `Note` and `Pop`
leaves the file system unchanged. -/
theorem C8_mutate_atomic (proc : ProcResult) (file lang cd x : Str) (fs : FS) :
    (fs file = none ∨ proc = ProcResult.startFailure →
      (∃ e, (ExecFS proc file lang cd fs).1 = .error e) ∧
      (ExecFS proc file lang cd fs).2 = fs) ∧
    (∀ e, (ExecFS proc file lang cd fs).1 = .error e → (ExecFS proc file lang cd fs).2 = fs) ∧
    (∀ e, (NoteFS file x fs).1 = .error e → (NoteFS file x fs).2 = fs) ∧
    (∀ e, (PopFS file fs).1 = .error e → (PopFS file fs).2 = fs) := by
  refine ⟨?_, ?_, ?_, ?_⟩
  · rintro (h | rfl)
    · simp [ExecFS, h]
    · cases hf : fs file with
      | none => simp [ExecFS, hf]
      | some text => simp [ExecFS, hf, runModel]
  · intro e he
    cases hf : fs file with
    | none => simp [ExecFS, hf]
    | some text =>
      cases proc with
      | exited out ec => simp [ExecFS, hf, runModel] at he
      | startFailure => simp [ExecFS, hf, runModel]
  · intro e he
    cases hf : fs file with
    | none => simp [NoteFS, hf]
    | some text => simp [NoteFS, hf] at he
  · intro e he
    cases hf : fs file with
    | none => simp [PopFS, hf]
    | some text =>
      cases hp : Pop (Parse text) with
      | error e2 => simp [PopFS, hf, hp]
      | ok bs => simp [PopFS, hf, hp] at he

/-- Witness for C8: a start failure on an existing document and an exec on a
missing document both leave the file system unchanged. -/
theorem C8_mutate_atomic_witness :
    (ExecFS ProcResult.startFailure sampleFile bashL cmd42 fsOne).2 = fsOne ∧
    (ExecFS (.exited failOut 42) sampleFile bashL cmd42 emptyFS).2 = emptyFS :=
  ⟨((C8_mutate_atomic ProcResult.startFailure sampleFile bashL cmd42 [] fsOne).1
      (Or.inr rfl)).2,
   ((C8_mutate_atomic (.exited failOut 42) sampleFile bashL cmd42 [] emptyFS).1
      (Or.inl rfl)).2⟩

/-! ## Verify (claims C4 and C5) -/

theorem refreshed_none (run : Str → Str → Str) (cur : Block) : refreshed run none cur = cur := by
  cases cur <;> rfl

theorem refreshed_not_plain (run : Str → Str → Str) (p cur : Block)
    (h : isPlainCode p = false) : refreshed run (some p) cur = cur := by
  cases p with
  | code lang cd isImg isSrv f =>
    cases isImg with
    | true => cases isSrv <;> cases cur <;> rfl
    | false =>
      cases isSrv with
      | true => cases cur <;> rfl
      | false => simp [isPlainCode] at h
  | title t ts v d => cases cur <;> rfl
  | commentary x => cases cur <;> rfl
  | output c => cases cur <;> rfl
  | imageOutput a f => cases cur <;> rfl

theorem refreshed_not_output (run : Str → Str → Str) (p : Option Block) (cur : Block)
    (h : isOutputB cur = false) : refreshed run p cur = cur := by
  cases p with
  | none => exact refreshed_none run cur
  | some b =>
    cases b with
    | code lang cd isImg isSrv f =>
      cases isImg <;> cases isSrv <;> cases cur <;> first
        | rfl
        | (simp [isOutputB] at h)
    | title t ts v d => cases cur <;> rfl
    | commentary x => cases cur <;> rfl
    | output c => cases cur <;> rfl
    | imageOutput a f => cases cur <;> rfl

theorem pairMismatch_cons (run : Str → Str → Str) (b : Block) (rest : List Block) (j : Nat) :
    pairMismatch run (b :: rest) (j + 1) = pairMismatch run rest j := by
  simp only [pairMismatch, List.getElem?_cons_succ]

theorem diffAtI_cons (run : Str → Str → Str) (i : Nat) (b : Block) (rest : List Block) (j : Nat) :
    diffAtI run i (b :: rest) (j + 1) = diffAtI run (i + 1) rest j := by
  unfold diffAtI
  rw [pairMismatch_cons]
  have h : i + (j + 1) = i + 1 + j := by omega
  rw [h]

theorem specDiffsI_cons (run : Str → Str → Str) (i : Nat) (b : Block) (rest : List Block) :
    specDiffsI run i (b :: rest) =
      (diffAtI run i (b :: rest) 0).toList ++ specDiffsI run (i + 1) rest := by
  unfold specDiffsI
  rw [List.length_cons, List.range_succ_eq_map, List.filterMap_cons, List.filterMap_map]
  have hcomp : (diffAtI run i (b :: rest)) ∘ Nat.succ = diffAtI run (i + 1) rest :=
    funext fun j => diffAtI_cons run i b rest j
  rw [hcomp]
  cases diffAtI run i (b :: rest) 0 <;> simp

theorem pairMismatch_zero_not_plain (run : Str → Str → Str) (b : Block) (rest : List Block)
    (hb : isPlainCode b = false) : pairMismatch run (b :: rest) 0 = none := by
  cases b with
  | code lang cd isImg isSrv f =>
    cases isImg with
    | true =>
      cases rest with
      | nil => cases isSrv <;> rfl
      | cons x t => cases isSrv <;> cases x <;> rfl
    | false =>
      cases isSrv with
      | true =>
        cases rest with
        | nil => rfl
        | cons x t => cases x <;> rfl
      | false => simp [isPlainCode] at hb
  | title t ts v d =>
    cases rest with
    | nil => rfl
    | cons x t => cases x <;> rfl
  | commentary x =>
    cases rest with
    | nil => rfl
    | cons y t => cases y <;> rfl
  | output c =>
    cases rest with
    | nil => rfl
    | cons y t => cases y <;> rfl
  | imageOutput a f =>
    cases rest with
    | nil => rfl
    | cons y t => cases y <;> rfl

theorem tail_formula (run : Str → Str → Str) (b : Block) (tail rest : List Block)
    (hj : ∀ j : Nat, tail[j]? = (rest[j]?).map (refreshed run (prevOf rest j)))
    (h0 : ∀ cur, rest[0]? = some cur → refreshed run (some b) cur = cur) :
    ∀ j : Nat, (b :: tail)[j]? = ((b :: rest)[j]?).map (refreshed run (prevOf (b :: rest) j)) := by
  intro j
  match j with
  | 0 => simp [prevOf, refreshed_none]
  | 1 =>
    have h := hj 0
    simp only [List.getElem?_cons_succ] at h ⊢
    rw [h]
    simp only [prevOf]
    cases hr : rest[0]? with
    | none => simp
    | some cur => simp [refreshed_none, h0 cur hr, List.getElem?_cons_zero]
  | k + 2 =>
    have h := hj (k + 1)
    simp only [List.getElem?_cons_succ] at h ⊢
    rw [h]
    simp [prevOf, List.getElem?_cons_succ]

/-- The pass invariant for one block: the abbreviation used by the step
lemmas below. -/
def VInv (run : Str → Str → Str) (i : Nat) (bs : List Block) : Prop :=
  (verifyLoop run i bs).1 = specDiffsI run i bs ∧
  (verifyLoop run i bs).2.1 = specServers bs ∧
  (verifyLoop run i bs).2.2.length = bs.length ∧
  ∀ j : Nat, (verifyLoop run i bs).2.2[j]? =
    (bs[j]?).map (refreshed run (prevOf bs j))

theorem step_skip (run : Str → Str → Str) (i : Nat) (b : Block) (rest : List Block)
    (hb : isPlainCode b = false)
    (hv : verifyLoop run i (b :: rest) =
      ((verifyLoop run (i + 1) rest).1, (verifyLoop run (i + 1) rest).2.1,
        b :: (verifyLoop run (i + 1) rest).2.2))
    (hsv : specServers (b :: rest) = specServers rest)
    (ihh : VInv run (i + 1) rest) : VInv run i (b :: rest) := by
  obtain ⟨ihd, ihs, ihl, ihj⟩ := ihh
  refine ⟨?_, ?_, ?_, ?_⟩
  · rw [specDiffsI_cons]
    have hz : pairMismatch run (b :: rest) 0 = none :=
      pairMismatch_zero_not_plain run b rest hb
    simp [hv, diffAtI, hz, ihd]
  · rw [hsv, hv]
    exact ihs
  · simp [hv, ihl]
  · intro j
    rw [hv]
    exact tail_formula run b _ rest ihj
      (fun cur _ => refreshed_not_plain run b cur hb) j

theorem step_plain_no_output (run : Str → Str → Str) (i : Nat) (lang cd f : Str)
    (rest : List Block)
    (hv : verifyLoop run i (Block.code lang cd false false f :: rest) =
      ((verifyLoop run (i + 1) rest).1, (verifyLoop run (i + 1) rest).2.1,
        Block.code lang cd false false f :: (verifyLoop run (i + 1) rest).2.2))
    (hz : pairMismatch run (Block.code lang cd false false f :: rest) 0 = none)
    (hout : ∀ cur, rest[0]? = some cur → isOutputB cur = false)
    (ihh : VInv run (i + 1) rest) :
    VInv run i (Block.code lang cd false false f :: rest) := by
  obtain ⟨ihd, ihs, ihl, ihj⟩ := ihh
  refine ⟨?_, ?_, ?_, ?_⟩
  · rw [specDiffsI_cons]
    simp [hv, diffAtI, hz, ihd]
  · rw [hv]
    simpa [specServers, List.filterMap_cons] using ihs
  · simp [hv, ihl]
  · intro j
    rw [hv]
    exact tail_formula run _ _ rest ihj
      (fun cur hc => refreshed_not_output run _ cur (hout cur hc)) j

theorem step_pair (run : Str → Str → Str) (i : Nat) (lang cd f oc : Str)
    (rest2 : List Block)
    (ihh : VInv run (i + 2) rest2) :
    VInv run i (Block.code lang cd false false f :: Block.output oc :: rest2) := by
  obtain ⟨ihd, ihs, ihl, ihj⟩ := ihh
  have hz : pairMismatch run (Block.code lang cd false false f :: Block.output oc :: rest2) 0
      = if oc ≠ run lang cd then some (oc, run lang cd) else none := by
    simp [pairMismatch]
  have hz2 : pairMismatch run (Block.output oc :: rest2) 0 = none :=
    pairMismatch_zero_not_plain run _ rest2 rfl
  refine ⟨?_, ?_, ?_, ?_⟩
  · rw [specDiffsI_cons, specDiffsI_cons]
    simp only [diffAtI, hz, hz2]
    by_cases hoc : oc = run lang cd
    · subst hoc
      simp [verifyLoop, ihd]
    · simp [verifyLoop, hoc, ihd]
  · by_cases hoc : oc = run lang cd
    · subst hoc
      simp [verifyLoop, specServers, List.filterMap_cons, ihs]
    · simp [verifyLoop, hoc, specServers, List.filterMap_cons, ihs]
  · by_cases hoc : oc = run lang cd
    · subst hoc
      simp [verifyLoop, ihl]
    · simp [verifyLoop, hoc, ihl]
  · intro j
    have htail : (verifyLoop run i
        (Block.code lang cd false false f :: Block.output oc :: rest2)).2.2 =
        Block.code lang cd false false f :: Block.output (run lang cd) ::
          (verifyLoop run (i + 2) rest2).2.2 := by
      by_cases hoc : oc = run lang cd
      · subst hoc
        simp [verifyLoop]
      · simp [verifyLoop, hoc]
    rw [htail]
    match j with
    | 0 => simp [prevOf, refreshed_none]
    | 1 => simp [prevOf, refreshed]
    | k + 2 =>
      have h := ihj k
      simp only [List.getElem?_cons_succ]
      rw [h]
      match k with
      | 0 =>
        simp only [prevOf, List.getElem?_cons_succ, List.getElem?_cons_zero]
        cases hr : rest2[0]? with
        | none => simp
        | some cur =>
          simp [refreshed_none, refreshed_not_plain run (Block.output oc) cur rfl]
      | m + 1 => simp [prevOf, List.getElem?_cons_succ]

/-- The verification pass, characterized: the diffs are exactly the
specification's per-position mismatches, the started servers are exactly the
non-image server blocks, and the resulting block list refreshes exactly the
output blocks paired with plain code blocks. -/
theorem verify_aux (run : Str → Str → Str) :
    ∀ (n : Nat) (bs : List Block), bs.length ≤ n → ∀ i : Nat, VInv run i bs := by
  intro n
  induction n with
  | zero =>
    intro bs hlen i
    have hnil : bs = [] := List.eq_nil_of_length_eq_zero (Nat.le_zero.mp hlen)
    subst hnil
    exact ⟨by simp [verifyLoop, specDiffsI], by simp [verifyLoop, specServers],
      by simp [verifyLoop], by intro j; simp [verifyLoop]⟩
  | succ n ih =>
    intro bs hlen i
    match bs with
    | [] =>
      exact ⟨by simp [verifyLoop, specDiffsI], by simp [verifyLoop, specServers],
        by simp [verifyLoop], by intro j; simp [verifyLoop]⟩
    | Block.title t ts v d :: rest =>
      have hrl : rest.length ≤ n := by simp [List.length_cons] at hlen; omega
      exact step_skip run i _ rest rfl (by simp [verifyLoop])
        (by simp [specServers, List.filterMap_cons]) (ih rest hrl (i + 1))
    | Block.commentary x :: rest =>
      have hrl : rest.length ≤ n := by simp [List.length_cons] at hlen; omega
      exact step_skip run i _ rest rfl (by simp [verifyLoop])
        (by simp [specServers, List.filterMap_cons]) (ih rest hrl (i + 1))
    | Block.output c :: rest =>
      have hrl : rest.length ≤ n := by simp [List.length_cons] at hlen; omega
      exact step_skip run i _ rest rfl (by simp [verifyLoop])
        (by simp [specServers, List.filterMap_cons]) (ih rest hrl (i + 1))
    | Block.imageOutput a f :: rest =>
      have hrl : rest.length ≤ n := by simp [List.length_cons] at hlen; omega
      exact step_skip run i _ rest rfl (by simp [verifyLoop])
        (by simp [specServers, List.filterMap_cons]) (ih rest hrl (i + 1))
    | Block.code lang cd true isSrv f :: rest =>
      have hrl : rest.length ≤ n := by simp [List.length_cons] at hlen; omega
      exact step_skip run i _ rest (by cases isSrv <;> rfl)
        (by cases isSrv <;> simp [verifyLoop])
        (by cases isSrv <;> simp [specServers, List.filterMap_cons]) (ih rest hrl (i + 1))
    | Block.code lang cd false true f :: rest =>
      have hrl : rest.length ≤ n := by simp [List.length_cons] at hlen; omega
      obtain ⟨ihd, ihs, ihl, ihj⟩ := ih rest hrl (i + 1)
      have hz : pairMismatch run (Block.code lang cd false true f :: rest) 0 = none :=
        pairMismatch_zero_not_plain run _ rest rfl
      refine ⟨?_, ?_, ?_, ?_⟩
      · rw [specDiffsI_cons]
        simp [verifyLoop, diffAtI, hz, ihd]
      · simp [verifyLoop, specServers, List.filterMap_cons, ihs]
      · simp [verifyLoop, ihl]
      · intro j
        simp only [verifyLoop]
        exact tail_formula run _ _ rest ihj
          (fun cur _ => refreshed_not_plain run (Block.code lang cd false true f) cur rfl) j
    | Block.code lang cd false false f :: rest =>
      match rest with
      | Block.output oc :: rest2 =>
        have hrl : rest2.length ≤ n := by simp [List.length_cons] at hlen; omega
        exact step_pair run i lang cd f oc rest2 (ih rest2 hrl (i + 2))
      | [] =>
        have hrl : ([] : List Block).length ≤ n := by simp
        exact step_plain_no_output run i lang cd f [] (by simp [verifyLoop]) (by simp [pairMismatch])
          (by intro cur h; simp at h) (ih [] hrl (i + 1))
      | Block.title t2 ts2 v2 d2 :: t =>
        have hrl : (Block.title t2 ts2 v2 d2 :: t).length ≤ n := by
          simp [List.length_cons] at hlen ⊢; omega
        refine step_plain_no_output run i lang cd f _ (by simp [verifyLoop]) (by simp [pairMismatch])
          ?_ (ih _ hrl (i + 1))
        intro cur h
        simp at h
        rw [← h]
        rfl
      | Block.commentary x2 :: t =>
        have hrl : (Block.commentary x2 :: t).length ≤ n := by
          simp [List.length_cons] at hlen ⊢; omega
        refine step_plain_no_output run i lang cd f _ (by simp [verifyLoop]) (by simp [pairMismatch])
          ?_ (ih _ hrl (i + 1))
        intro cur h
        simp at h
        rw [← h]
        rfl
      | Block.code l2 c2 i2 s2 f2 :: t =>
        have hrl : (Block.code l2 c2 i2 s2 f2 :: t).length ≤ n := by
          simp [List.length_cons] at hlen ⊢; omega
        refine step_plain_no_output run i lang cd f _ (by simp [verifyLoop]) (by simp [pairMismatch])
          ?_ (ih _ hrl (i + 1))
        intro cur h
        simp at h
        rw [← h]
        rfl
      | Block.imageOutput a2 f2 :: t =>
        have hrl : (Block.imageOutput a2 f2 :: t).length ≤ n := by
          simp [List.length_cons] at hlen ⊢; omega
        refine step_plain_no_output run i lang cd f _ (by simp [verifyLoop]) (by simp [pairMismatch])
          ?_ (ih _ hrl (i + 1))
        intro cur h
        simp at h
        rw [← h]
        rfl

/-- Claim C4: verification re-executes every non-image, non-server code
block in document order, compares each captured output with the adjacent
output block's stored content by string equality, and collects every
mismatch as a `Diff {blockIndex, expected, actual}` without stopping at the
first one (the pass always completes, the deterministic oracle standing for
executions that all succeed); server code blocks are never diffed, only
started. -/
theorem C4_verify_full_pass (run : Str → Str → Str) (bs : List Block) :
    (verifyLoop run 0 bs).1 = specDiffs run bs ∧
    (verifyLoop run 0 bs).2.1 = specServers bs :=
  ⟨(verify_aux run bs.length bs le_rfl 0).1, (verify_aux run bs.length bs le_rfl 0).2.1⟩

/-- Claim C5: with an alternate output path, verify writes the full block
sequence to that path with every output block paired with a plain code block
holding the freshly captured value (also when it did not drift), writes
nothing else, and leaves the original input file untouched. -/
theorem C5_verify_output_path (run : Str → Str → Str) (file out text : Str) (fs : FS)
    (hf : fs file = some text) (hout : out ≠ []) (hfo : file ≠ out) :
    (VerifyFS run file out fs).1 = .ok (specDiffs run (Parse text)) ∧
    (VerifyFS run file out fs).2 out =
      some (Write ((verifyLoop run 0 (Parse text)).2.2)) ∧
    (∀ p, p ≠ out → (VerifyFS run file out fs).2 p = fs p) ∧
    (VerifyFS run file out fs).2 file = fs file ∧
    (verifyLoop run 0 (Parse text)).2.2.length = (Parse text).length ∧
    ∀ j : Nat, (verifyLoop run 0 (Parse text)).2.2[j]? =
      ((Parse text)[j]?).map (refreshed run (prevOf (Parse text) j)) := by
  have hinv := verify_aux run (Parse text).length (Parse text) le_rfl 0
  have hVF : VerifyFS run file out fs =
      (.ok (verifyLoop run 0 (Parse text)).1,
        fsWrite fs out (Write (verifyLoop run 0 (Parse text)).2.2)) := by
    simp [VerifyFS, hf, hout]
  refine ⟨?_, ?_, ?_, ?_, hinv.2.2.1, hinv.2.2.2⟩
  · rw [hVF, hinv.1]
    rfl
  · rw [hVF]
    simp [fsWrite]
  · intro p hp
    rw [hVF]
    simp [fsWrite, hp]
  · rw [hVF]
    simp [fsWrite, hfo]

/-- Witness for C5 at a concrete document, oracle and two distinct paths:
the original file is untouched and the diffs are the specification's. -/
theorem C5_verify_output_path_witness :
    fsOne sampleFile = some (Write exDoc) ∧ sampleOther ≠ [] ∧ sampleFile ≠ sampleOther ∧
    (VerifyFS runHi sampleFile sampleOther fsOne).2 sampleFile = fsOne sampleFile ∧
    (VerifyFS runHi sampleFile sampleOther fsOne).1 =
      .ok (specDiffs runHi (Parse (Write exDoc))) :=
  ⟨rfl, by decide, by decide,
   (C5_verify_output_path runHi sampleFile sampleOther (Write exDoc) fsOne rfl
      (by decide) (by decide)).2.2.2.1,
   (C5_verify_output_path runHi sampleFile sampleOther (Write exDoc) fsOne rfl
      (by decide) (by decide)).1⟩

/-! ## Extract (claim C9) -/

theorem replaceAll_cons (c : Char) (t pat rep : Str) :
    replaceAll (c :: t) pat rep =
      if isPre pat (c :: t) = true ∧ pat ≠ [] then
        rep ++ replaceAll ((c :: t).drop pat.length) pat rep
      else c :: replaceAll t pat rep := by
  rw [replaceAll.eq_def]
  split
  · rename_i heq
    exact absurd heq (List.cons_ne_nil c t)
  · rename_i c2 t2 heq
    injection heq with h1 h2
    subst h1
    subst h2
    rw [dite_eq_ite]

theorem replaceAll_single_quote (s : Str) : replaceAll s [sq] escRep = escSpec s := by
  induction s with
  | nil =>
    rw [replaceAll.eq_def]
    rfl
  | cons c t ihc =>
    rw [replaceAll_cons]
    by_cases hc : c = sq
    · subst hc
      rw [if_pos ⟨by simp [isPre], by simp⟩]
      simp only [List.length_cons, List.length_nil, List.drop_succ_cons, List.drop_zero]
      rw [ihc]
      simp [escSpec]
    · rw [if_neg]
      · simp [escSpec, hc, ihc]
      · rintro ⟨h1, _⟩
        simp [isPre] at h1
        exact hc h1.symm

theorem Extract_eq_filterMap (file : Str) (bs : List Block) :
    Extract file bs = bs.filterMap (cmdFor file) := by
  induction bs with
  | nil => rfl
  | cons b rest ihc =>
    unfold Extract
    rw [List.filterMap_cons]
    cases cmdFor file b <;> simp [ihc]

/-- Claim C9 (spec-modelled: `cmd/extract.go` is absent from the sources):
extraction emits exactly one command per Title, Commentary and Code block in
document order and none for Output/ImageOutput blocks; a nonempty argument
with no whitespace, quote or shell metacharacter is left unquoted, any other
argument is wrapped in single quotes with each internal single quote escaped
by closing the quote, inserting an escaped quote, and reopening. -/
theorem C9_extract_reconstruction (file : Str) (bs : List Block) (s : Str) :
    Extract file bs = bs.filterMap (cmdFor file) ∧
    (∀ b : Block, (cmdFor file b).isSome = emitsCmd b) ∧
    (s ≠ [] → (∀ c ∈ s, c ∉ metaChars) → shellQuote s = s) ∧
    ((s = [] ∨ ∃ c ∈ s, c ∈ metaChars) → shellQuote s = sq :: (escSpec s ++ [sq])) := by
  refine ⟨Extract_eq_filterMap file bs, ?_, ?_, ?_⟩
  · intro b
    cases b <;> rfl
  · intro hne hclean
    unfold shellQuote
    rw [if_neg]
    simp only [Bool.or_eq_true, not_or, List.isEmpty_iff, List.any_eq_true, not_exists]
    refine ⟨hne, ?_⟩
    intro c
    simp only [not_and, decide_eq_true_eq]
    exact fun hc => hclean c hc
  · intro hq
    unfold shellQuote
    rw [if_pos, replaceAll_single_quote]
    rcases hq with hq | ⟨c, hc, hm⟩
    · subst hq
      simp
    · simp only [Bool.or_eq_true, List.any_eq_true, decide_eq_true_eq]
      exact Or.inr ⟨c, hc, hm⟩

/-- Witness for C9: the three-block demo document extracts to three commands
in order; `hello` stays unquoted; `hello world` is quoted with the escaping
scheme. -/
theorem C9_extract_reconstruction_witness :
    Extract sampleFile exDoc = exDoc.filterMap (cmdFor sampleFile) ∧
    shellQuote helloW = helloW ∧
    shellQuote spacedW = sq :: (escSpec spacedW ++ [sq]) :=
  ⟨(C9_extract_reconstruction sampleFile exDoc helloW).1,
   (C9_extract_reconstruction sampleFile exDoc helloW).2.2.1 (by decide) (by decide),
   (C9_extract_reconstruction sampleFile exDoc spacedW).2.2.2
     (Or.inr ⟨' ', by decide, by decide⟩)⟩

/-! ## Round trip: string and line basics -/

theorem isPre_append (p s : Str) : isPre p (p ++ s) = true := by
  induction p with
  | nil => rfl
  | cons c t ihc => simp [isPre, ihc]

theorem isPre_cons_false (a b : Char) (p s : Str) (h : a ≠ b) :
    isPre (a :: p) (b :: s) = false := by
  simp [isPre, h]

theorem isSuf_append (p l : Str) : isSuf p (l ++ p) = true := by
  unfold isSuf
  rw [List.reverse_append]
  exact isPre_append p.reverse l.reverse

theorem trimSufL_append (p l : Str) : trimSufL p (l ++ p) = l := by
  unfold trimSufL
  rw [if_pos (isSuf_append p l)]
  have h : (l ++ p).length - p.length = l.length := by simp
  rw [h, List.take_left]

theorem indexOfSub_zero (s pat : Str) (h : isPre pat s = true) :
    indexOfSub s pat = some 0 := by
  cases s with
  | nil => simp [indexOfSub, h]
  | cons c t => simp [indexOfSub, h]

theorem dropCR_eq (l : Str) (h : ¬ endsCR l) : dropCR l = l := by
  unfold dropCR
  rw [if_neg]
  exact h

theorem goLinesA_line (l : Str) (hl : noNL l) :
    ∀ (acc s : Str), goLinesA (l ++ '\n' :: s) acc = dropCR (acc.reverse ++ l) :: goLinesA s [] := by
  induction l with
  | nil =>
    intro acc s
    simp [goLinesA]
  | cons c t ihc =>
    intro acc s
    have hc : c ≠ '\n' := by
      intro hc
      exact hl (by simp [noNL, hc])
    have ht : noNL t := by
      intro hm
      exact hl (by simp [noNL, hm])
    simp only [List.cons_append, goLinesA, if_neg hc, List.append_eq]
    rw [ihc ht (c :: acc) s]
    simp

theorem goLines_line (l : Str) (s : Str) (hl : noNL l) (hcr : ¬ endsCR l) :
    goLines (l ++ '\n' :: s) = l :: goLines s := by
  unfold goLines
  rw [goLinesA_line l hl [] s]
  simp [dropCR_eq l hcr]

theorem goLines_join (ps : List Str) (s : Str)
    (h : ∀ p ∈ ps, noNL p ∧ ¬ endsCR p) :
    goLines (joinNL ps ++ s) = ps ++ goLines s := by
  induction ps with
  | nil => simp [joinNL]
  | cons p rest ihc =>
    have hp := h p (by simp)
    have hr : ∀ q ∈ rest, noNL q ∧ ¬ endsCR q := fun q hq => h q (by simp [hq])
    show goLines ((p ++ '\n' :: joinNL rest) ++ s) = (p :: rest) ++ goLines s
    rw [show (p ++ '\n' :: joinNL rest) ++ s = p ++ '\n' :: (joinNL rest ++ s) by simp]
    rw [goLines_line p _ hp.1 hp.2, ihc hr]
    rfl

theorem splitNL_ne_nil (s : Str) : splitNL s ≠ [] := by
  cases s with
  | nil => simp [splitNL]
  | cons c t =>
    unfold splitNL
    by_cases hc : c = '\n'
    · simp [hc]
    · simp only [if_neg hc]
      cases splitNL t <;> simp

theorem splitNL_noNL (s : Str) : ∀ p ∈ splitNL s, noNL p := by
  induction s with
  | nil =>
    intro p hp
    simp [splitNL] at hp
    simp [hp, noNL]
  | cons c t ihc =>
    intro p hp
    unfold splitNL at hp
    by_cases hc : c = '\n'
    · rw [if_pos hc] at hp
      rcases List.mem_cons.mp hp with h | h
      · simp [h, noNL]
      · exact ihc p h
    · rw [if_neg hc] at hp
      rcases hsp : splitNL t with _ | ⟨h0, r0⟩
      · exact absurd hsp (splitNL_ne_nil t)
      · rw [hsp] at hp
        rcases List.mem_cons.mp hp with h | h
        · subst h
          have h0mem : h0 ∈ splitNL t := by rw [hsp]; simp
          have := ihc h0 h0mem
          intro hm
          rcases List.mem_cons.mp hm with h2 | h2
          · exact hc h2.symm
          · exact this h2
        · exact ihc p (by rw [hsp]; simp [h])

theorem intercalateNL_splitNL (s : Str) : intercalateNL (splitNL s) = s := by
  induction s with
  | nil => rfl
  | cons c t ihc =>
    unfold splitNL
    by_cases hc : c = '\n'
    · rw [if_pos hc]
      rcases hsp : splitNL t with _ | ⟨h0, r0⟩
      · exact absurd hsp (splitNL_ne_nil t)
      · rw [← hsp]
        subst hc
        show intercalateNL ([] :: splitNL t) = '\n' :: t
        rw [hsp]
        show [] ++ '\n' :: intercalateNL (h0 :: r0) = '\n' :: t
        rw [← hsp, ihc]
        rfl
    · rw [if_neg hc]
      rcases hsp : splitNL t with _ | ⟨h0, r0⟩
      · exact absurd hsp (splitNL_ne_nil t)
      · rw [hsp] at ihc
        cases r0 with
        | nil =>
          show intercalateNL [c :: h0] = c :: t
          show c :: h0 = c :: t
          rw [show h0 = intercalateNL [h0] from rfl, ihc]
        | cons r1 rs =>
          show (c :: h0) ++ '\n' :: intercalateNL (r1 :: rs) = c :: t
          rw [show t = intercalateNL (h0 :: r1 :: rs) from ihc.symm]
          rfl

theorem joinNL_splitNL (s : Str) : joinNL (splitNL s) = s ++ ['\n'] := by
  induction s with
  | nil => rfl
  | cons c t ihc =>
    unfold splitNL
    by_cases hc : c = '\n'
    · rw [if_pos hc]
      subst hc
      show [] ++ '\n' :: joinNL (splitNL t) = '\n' :: (t ++ ['\n'])
      rw [ihc]
      rfl
    · rw [if_neg hc]
      rcases hsp : splitNL t with _ | ⟨h0, r0⟩
      · exact absurd hsp (splitNL_ne_nil t)
      · rw [hsp] at ihc
        show (c :: h0) ++ '\n' :: joinNL r0 = (c :: t) ++ ['\n']
        have : h0 ++ '\n' :: joinNL r0 = t ++ ['\n'] := ihc
        simp only [List.cons_append, List.cons.injEq, true_and]
        exact this

theorem splitNL_cons_neq (c : Char) (t : Str) (hc : c ≠ '\n') (h0 : Str) (r0 : List Str)
    (hsp : splitNL t = h0 :: r0) : splitNL (c :: t) = (c :: h0) :: r0 := by
  unfold splitNL
  rw [if_neg hc, hsp]

theorem splitNL_line (p s : Str) (hp : noNL p) : splitNL (p ++ '\n' :: s) = p :: splitNL s := by
  induction p with
  | nil => simp [splitNL]
  | cons c t ihc =>
    have hc : c ≠ '\n' := fun h => hp (by simp [noNL, h])
    have ht : noNL t := fun hm => hp (by simp [noNL, hm])
    show splitNL (c :: (t ++ '\n' :: s)) = (c :: t) :: splitNL s
    exact splitNL_cons_neq c _ hc t (splitNL s) (ihc ht)

theorem splitNL_joinNL (ps : List Str) (h : ∀ p ∈ ps, noNL p) :
    splitNL (joinNL ps) = ps ++ [[]] := by
  induction ps with
  | nil => rfl
  | cons p rest ihc =>
    show splitNL (p ++ '\n' :: joinNL rest) = (p :: rest) ++ [[]]
    rw [splitNL_line p _ (h p (by simp)), ihc (fun q hq => h q (by simp [hq]))]
    rfl

theorem joinNL_append (a b : List Str) : joinNL (a ++ b) = joinNL a ++ joinNL b := by
  induction a with
  | nil => rfl
  | cons p rest ihc => simp [joinNL, ihc]

theorem takeWhile_append_stop {α : Type} (p : α → Bool) (l1 : List α) (y : α) (t : List α)
    (h1 : ∀ x ∈ l1, p x = true) (hy : p y = false) :
    (l1 ++ y :: t).takeWhile p = l1 := by
  induction l1 with
  | nil => simp [List.takeWhile_cons, hy]
  | cons a rest ihc =>
    have ha := h1 a (by simp)
    simp only [List.cons_append, List.takeWhile_cons, ha, if_true]
    rw [ihc (fun x hx => h1 x (by simp [hx]))]

theorem dropWhile_append_stop {α : Type} (p : α → Bool) (l1 : List α) (y : α) (t : List α)
    (h1 : ∀ x ∈ l1, p x = true) (hy : p y = false) :
    (l1 ++ y :: t).dropWhile p = y :: t := by
  induction l1 with
  | nil => simp [List.dropWhile_cons, hy]
  | cons a rest ihc =>
    have ha := h1 a (by simp)
    simp only [List.cons_append, List.dropWhile_cons, ha, if_true]
    exact ihc (fun x hx => h1 x (by simp [hx]))

theorem takeWhile_all {α : Type} (p : α → Bool) (l : List α) (h : ∀ x ∈ l, p x = true) :
    l.takeWhile p = l := by
  induction l with
  | nil => rfl
  | cons a rest ihc =>
    simp only [List.takeWhile_cons, h a (by simp), if_true]
    rw [ihc (fun x hx => h x (by simp [hx]))]

theorem dropWhile_all {α : Type} (p : α → Bool) (l : List α) (h : ∀ x ∈ l, p x = true) :
    l.dropWhile p = [] := by
  induction l with
  | nil => rfl
  | cons a rest ihc =>
    simp only [List.dropWhile_cons, h a (by simp), if_true]
    exact ihc (fun x hx => h x (by simp [hx]))

/-! ## Round trip: fences, asterisk trimming, image references -/

theorem getLast?_replicate_tick (n : Nat) (h : n ≠ 0) :
    (List.replicate n tick).getLast? = some tick := by
  induction n with
  | zero => simp at h
  | succ m ih =>
    cases m with
    | zero => rfl
    | succ k =>
      rw [List.replicate_succ, List.getLast?_cons]
      simp only [ih (Nat.succ_ne_zero k)]
      simp [List.replicate_succ]

theorem noNL_replicate_tick (n : Nat) : noNL (List.replicate n tick) := by
  intro h
  have := (List.mem_replicate.mp h).2
  simp [tick] at this

theorem le_foldr_max (l : List Nat) (x : Nat) (h : x ∈ l) : x ≤ l.foldr max 0 := by
  induction l with
  | nil => simp at h
  | cons a t ih =>
    rcases List.mem_cons.mp h with rfl | hm
    · exact le_max_left _ _
    · exact le_trans (ih hm) (le_max_right _ _)

theorem leadTicks_replicate (n : Nat) : leadTicks (List.replicate n tick) = n := by
  unfold leadTicks
  rw [takeWhile_all _ _ (fun y hy => by simp [(List.mem_replicate.mp hy).2])]
  exact List.length_replicate n tick

theorem leadTicks_replicate_append (n : Nat) (x : Str) (hx : x.head? ≠ some tick) :
    leadTicks (List.replicate n tick ++ x) = n := by
  cases x with
  | nil => simpa using leadTicks_replicate n
  | cons c t =>
    have hc : (c == tick) = false := by
      simp only [List.head?] at hx
      simp only [beq_eq_false_iff_ne, ne_eq]
      intro he
      exact hx (by rw [he])
    unfold leadTicks
    have h1 : ∀ y ∈ List.replicate n tick, (y == tick) = true := by
      intro y hy
      simp [(List.mem_replicate.mp hy).2]
    rw [takeWhile_append_stop _ _ _ _ h1 hc]
    exact List.length_replicate n tick

theorem fence3_repl : fence3 = List.replicate 3 tick := by decide

theorem drop_replicate_append (n : Nat) (x : Str) :
    (List.replicate n tick ++ x).drop n = x := by
  have h : (List.replicate n tick ++ x).drop (List.replicate n tick).length = x :=
    List.drop_left _ _
  rwa [List.length_replicate] at h

theorem trimStars_wrap (dl : Str) (h1 : dl.head? ≠ some '*') (h2 : dl.getLast? ≠ some '*') :
    trimStars ('*' :: (dl ++ ['*'])) = dl := by
  unfold trimStars
  rw [List.dropWhile_cons]
  simp only [beq_self_eq_true, if_true]
  cases dl with
  | nil => simp
  | cons d dt =>
    have hd : (d == '*') = false := by
      simp only [beq_eq_false_iff_ne, ne_eq]
      intro he
      exact h1 (by simp [he])
    rw [List.cons_append, List.dropWhile_cons, hd]
    simp only [Bool.false_eq_true, if_false]
    rw [show (d :: (dt ++ ['*'])) = (d :: dt) ++ ['*'] by simp]
    rw [List.reverse_append]
    simp only [List.reverse_cons, List.reverse_nil, List.nil_append, List.singleton_append]
    rw [List.dropWhile_cons]
    simp only [beq_self_eq_true, if_true]
    rcases hrev : (d :: dt).reverse with _ | ⟨y, ys⟩
    · exact absurd hrev (by simp)
    · have hy : (y == '*') = false := by
        simp only [beq_eq_false_iff_ne, ne_eq]
        intro he
        apply h2
        rw [← List.head?_reverse, hrev, he]
        rfl
      rw [show dt.reverse ++ [d] = (d :: dt).reverse by rw [List.reverse_cons], hrev]
      rw [List.dropWhile_cons, hy]
      simp only [Bool.false_eq_true, if_false]
      rw [← hrev, List.reverse_reverse]

theorem maxTickRun_lt_fence (c : Str) : maxTickRun c < (fenceFor c).length := by
  unfold fenceFor
  rw [List.length_replicate]
  split <;> omega

theorem fence_len_ge3 (c : Str) : 3 ≤ (fenceFor c).length := by
  unfold fenceFor
  rw [List.length_replicate]
  split <;> omega

theorem fenceFor_repl (c : Str) : fenceFor c = List.replicate (fenceFor c).length tick := by
  unfold fenceFor
  rw [List.length_replicate]

theorem outPieces_noNL (c : Str) : ∀ p ∈ outPieces c, noNL p := by
  unfold outPieces
  split
  · simp
  · exact fun p hp => splitNL_noNL _ p hp

theorem splitNL_of_outJoin (c : Str) (h : joinNL (outPieces c) = c) :
    splitNL c = outPieces c ++ [[]] := by
  conv_lhs => rw [← h]
  exact splitNL_joinNL _ (outPieces_noNL c)

theorem leadTicks_le_max (c p : Str) (hp : p ∈ splitNL c) : leadTicks p ≤ maxTickRun c := by
  unfold maxTickRun
  exact le_foldr_max _ _ (List.mem_map_of_mem leadTicks hp)

theorem outPieces_ne_fence (c : Str) (h : joinNL (outPieces c) = c) :
    ∀ p ∈ outPieces c, p ≠ fenceFor c := by
  intro p hp he
  have hmem : p ∈ splitNL c := by
    rw [splitNL_of_outJoin c h]
    exact List.mem_append_left _ hp
  have hle := leadTicks_le_max c p hmem
  have hfl : leadTicks (fenceFor c) = (fenceFor c).length := by
    conv_lhs => rw [fenceFor_repl]
    exact leadTicks_replicate _
  rw [he, hfl] at hle
  have := maxTickRun_lt_fence c
  omega

theorem bang2_eq : bang2 = ['!', '['] := by decide

theorem parseImageRef_canon (alt fn : Str)
    (h4 : indexOfSub (alt ++ ']' :: '(' :: (fn ++ [')'])) brParen = some alt.length)
    (h5 : indexOfSub (fn ++ [')']) parenR = some fn.length) :
    parseImageRef (imageLine alt fn) = (alt, fn) := by
  have hpre : isPre bang2 (imageLine alt fn) = true := by
    rw [bang2_eq]
    unfold imageLine
    simp [isPre]
  have hdrop : (imageLine alt fn).drop (0 + 2) = alt ++ ']' :: '(' :: (fn ++ [')']) := rfl
  have htake : (alt ++ ']' :: '(' :: (fn ++ [')'])).take alt.length = alt :=
    List.take_left alt (']' :: '(' :: (fn ++ [')']))
  have hdrop2 : (alt ++ ']' :: '(' :: (fn ++ [')'])).drop (alt.length + 2) = fn ++ [')'] := by
    have hsh : alt ++ ']' :: '(' :: (fn ++ [')']) = (alt ++ [']', '(']) ++ (fn ++ [')']) := by
      simp
    rw [hsh]
    have hlen : (alt ++ [']', '(']).length = alt.length + 2 := by simp
    rw [← hlen]
    exact List.drop_left _ _
  have htake2 : (fn ++ [')']).take fn.length = fn := List.take_left fn [')']
  unfold parseImageRef
  rw [indexOfSub_zero _ _ hpre]
  simp only [hdrop, h4, htake, hdrop2, h5, htake2]

theorem lineStops_fence (x : Str) : lineStops (fence3 ++ x) = true := by
  unfold lineStops
  rw [isPre_append]
  rfl

theorem lineStops_fenceN (n : Nat) (hn : 3 ≤ n) (x : Str) :
    lineStops (List.replicate n tick ++ x) = true := by
  have hsplit : List.replicate n tick = fence3 ++ List.replicate (n - 3) tick := by
    rw [fence3_repl, ← List.replicate_add]
    congr 1
    omega
  rw [hsplit, List.append_assoc]
  exact lineStops_fence _

theorem lineStops_image (alt fn : Str)
    (h4 : indexOfSub (alt ++ ']' :: '(' :: (fn ++ [')'])) brParen = some alt.length)
    (h5 : indexOfSub (fn ++ [')']) parenR = some fn.length) (hfn : fn ≠ []) :
    lineStops (imageLine alt fn) = true := by
  unfold lineStops
  rw [parseImageRef_canon alt fn h4 h5]
  have hpre : isPre bang2 (imageLine alt fn) = true := by
    rw [bang2_eq]
    unfold imageLine
    simp [isPre]
  rw [hpre]
  simp [List.isEmpty_iff, hfn]

theorem noNL_app (a b : Str) (ha : noNL a) (hb : noNL b) : noNL (a ++ b) := by
  unfold noNL at *
  simp only [List.mem_append]
  rintro (h | h)
  · exact ha h
  · exact hb h

theorem endsCR_append_right (a b : Str) (hb : b ≠ []) : endsCR (a ++ b) ↔ endsCR b := by
  unfold endsCR
  rw [List.getLast?_append_of_ne_nil a hb]

theorem not_endsCR_app (a b : Str) (ha : ¬ endsCR a) (hb : ¬ endsCR b) : ¬ endsCR (a ++ b) := by
  cases b with
  | nil => simpa using ha
  | cons x t => exact fun h => hb ((endsCR_append_right a _ (by simp)).mp h)

/-! ## Round trip: the writer's lines are clean scanner lines -/

theorem noNL_dlOf (ts v : Str) (hts : noNL ts) (hv : noNL v) : noNL (dlOf ts v) := by
  unfold dlOf
  split
  · exact hts
  · exact noNL_app _ _ (noNL_app _ _ hts (by decide)) hv

theorem blockLines_clean (b : Block) (hb : wfB b) :
    ∀ p ∈ blockLines b, noNL p ∧ ¬ endsCR p := by
  cases b with
  | title t ts v d =>
    obtain ⟨h1, h2, h3, h4, _, _, _, _⟩ := hb
    intro p hp
    simp only [blockLines, List.mem_cons, List.not_mem_nil, or_false] at hp
    rcases hp with rfl | rfl | rfl
    · exact ⟨noNL_app _ _ (by decide) h1, not_endsCR_app _ _ (by decide) h2⟩
    · exact ⟨by decide, by decide⟩
    · constructor
      · show noNL ('*' :: (dlOf ts v ++ ['*']))
        have hsh : ('*' :: (dlOf ts v ++ ['*'])) = ['*'] ++ (dlOf ts v ++ ['*']) := rfl
        rw [hsh]
        exact noNL_app _ _ (by decide) (noNL_app _ _ (noNL_dlOf ts v h3 h4) (by decide))
      · show ¬ endsCR ('*' :: (dlOf ts v ++ ['*']))
        intro hcr
        have hcr2 : endsCR (('*' :: dlOf ts v) ++ ['*']) := by simpa using hcr
        rw [endsCR_append_right _ _ (by simp)] at hcr2
        exact (by decide : ¬ endsCR ['*']) hcr2
  | commentary x =>
    obtain ⟨_, _, h3⟩ := hb
    intro p hp
    exact ⟨splitNL_noNL x p hp, (h3 p hp).1⟩
  | code lang cd isImg isSrv fn =>
    obtain ⟨hsrv, hfn, h1, h2, _, _, _, h8⟩ := hb
    intro p hp
    simp only [blockLines, List.mem_cons] at hp
    rcases hp with rfl | hp
    · subst hsrv
      constructor
      · refine noNL_app _ _ (by decide) (noNL_app _ _ h1 ?_)
        cases isImg
        · decide
        · decide
      · cases isImg with
        | true =>
          show ¬ endsCR (fence3 ++ (lang ++ imgSuf))
          intro hcr
          rw [endsCR_append_right _ _ (by simp [imgSuf])] at hcr
          rw [endsCR_append_right _ _ (by decide)] at hcr
          exact (by decide : ¬ endsCR imgSuf) hcr
        | false =>
          show ¬ endsCR (fence3 ++ (lang ++ annSuf false false))
          have ha : annSuf false false = [] := rfl
          rw [ha, List.append_nil]
          exact not_endsCR_app _ _ (by decide) h2
    · rcases List.mem_append.mp hp with hp | hp
      · exact ⟨splitNL_noNL cd p hp, (h8 p hp).1⟩
      · simp only [List.mem_singleton] at hp
        subst hp
        exact ⟨by decide, by decide⟩
  | output c =>
    obtain ⟨h1, h2⟩ := hb
    have hnl : noNL (fenceFor c) := by
      rw [fenceFor_repl]
      exact noNL_replicate_tick _
    have hcr : ¬ endsCR (fenceFor c) := by
      intro hc
      unfold endsCR at hc
      rw [fenceFor_repl, getLast?_replicate_tick _ (by have := fence_len_ge3 c; omega)] at hc
      exact absurd hc (by decide)
    intro p hp
    simp only [blockLines, List.mem_cons] at hp
    rcases hp with rfl | hp
    · constructor
      · exact noNL_app _ _ hnl (by decide)
      · intro hc
        rw [endsCR_append_right _ _ (by decide)] at hc
        exact (by decide : ¬ endsCR outWord) hc
    · rcases List.mem_append.mp hp with hp | hp
      · exact ⟨outPieces_noNL c p hp, h2 p hp⟩
      · simp only [List.mem_singleton] at hp
        subst hp
        exact ⟨hnl, hcr⟩
  | imageOutput alt fn =>
    obtain ⟨h1, h2, _, _, _⟩ := hb
    intro p hp
    simp only [blockLines, List.mem_singleton] at hp
    subst hp
    constructor
    · show noNL (imageLine alt fn)
      have hsh : imageLine alt fn =
          ['!', '['] ++ (alt ++ ([']', '('] ++ (fn ++ [')']))) := by
        simp [imageLine]
      rw [hsh]
      refine noNL_app _ _ (by decide) (noNL_app _ _ h1 ?_)
      exact noNL_app _ _ (by decide) (noNL_app _ _ h2 (by decide))
    · show ¬ endsCR (imageLine alt fn)
      have hsh : imageLine alt fn =
          ('!' :: '[' :: (alt ++ ']' :: '(' :: fn)) ++ [')'] := by
        simp [imageLine]
      rw [hsh]
      intro hcr
      rw [endsCR_append_right _ _ (by simp)] at hcr
      exact (by decide : ¬ endsCR [')']) hcr

theorem blockLines_ne_nil (b : Block) : blockLines b ≠ [] := by
  cases b with
  | commentary x => exact splitNL_ne_nil x
  | title t ts v d => simp [blockLines]
  | code lang cd isImg isSrv fn => simp [blockLines]
  | output c => simp [blockLines]
  | imageOutput alt fn => simp [blockLines]

theorem writeBlock_joinNL (b : Block) (hb : wfB b) : writeBlock b = joinNL (blockLines b) := by
  cases b with
  | title t ts v d =>
    simp [writeBlock, blockLines, joinNL, titleLine, starLine, hashSp]
  | commentary x =>
    show x ++ ['\n'] = joinNL (splitNL x)
    rw [joinNL_splitNL]
  | code lang cd isImg isSrv fn =>
    show fence3 ++ (lang ++ (if isImg then imgSuf else if isSrv then srvSuf else []))
        ++ '\n' :: (cd ++ '\n' :: (fence3 ++ ['\n']))
      = joinNL ((fence3 ++ (lang ++ annSuf isImg isSrv)) :: (splitNL cd ++ [fence3]))
    rw [show joinNL ((fence3 ++ (lang ++ annSuf isImg isSrv)) :: (splitNL cd ++ [fence3]))
        = (fence3 ++ (lang ++ annSuf isImg isSrv)) ++ '\n' :: joinNL (splitNL cd ++ [fence3])
      from rfl]
    rw [joinNL_append, joinNL_splitNL]
    simp [annSuf, joinNL]
  | output c =>
    obtain ⟨h1, _⟩ := hb
    show (fenceFor c ++ outWord) ++ '\n' :: (c ++ (fenceFor c ++ ['\n']))
      = joinNL ((fenceFor c ++ outWord) :: (outPieces c ++ [fenceFor c]))
    rw [show joinNL ((fenceFor c ++ outWord) :: (outPieces c ++ [fenceFor c]))
        = (fenceFor c ++ outWord) ++ '\n' :: joinNL (outPieces c ++ [fenceFor c]) from rfl]
    rw [joinNL_append, h1]
    simp [joinNL]
  | imageOutput alt fn =>
    simp [writeBlock, blockLines, joinNL, imageLine]

/-- The scanner lines of a well-formed document's text are exactly the
writer's block line sequence. -/
theorem write_lines (bs : List Block) (h : ∀ b ∈ bs, wfB b) :
    goLines (Write bs) = seqLines bs := by
  induction bs with
  | nil => rfl
  | cons b rest ihc =>
    have hb := h b (by simp)
    cases rest with
    | nil =>
      show goLines (writeBlock b) = blockLines b
      rw [writeBlock_joinNL b hb]
      have h2 := goLines_join (blockLines b) [] (blockLines_clean b hb)
      rw [List.append_nil] at h2
      rw [h2, show goLines ([] : Str) = [] from rfl, List.append_nil]
    | cons b2 rest2 =>
      show goLines (writeBlock b ++ '\n' :: Write (b2 :: rest2))
        = blockLines b ++ [] :: seqLines (b2 :: rest2)
      rw [writeBlock_joinNL b hb]
      rw [show joinNL (blockLines b) ++ '\n' :: Write (b2 :: rest2)
          = joinNL (blockLines b ++ [[]]) ++ Write (b2 :: rest2) by
        rw [joinNL_append]
        simp [joinNL]]
      rw [goLines_join (blockLines b ++ [[]]) _ ?hcl]
      case hcl =>
        intro p hp
        rcases List.mem_append.mp hp with hp | hp
        · exact blockLines_clean b hb p hp
        · simp at hp
          subst hp
          exact ⟨by decide, by decide⟩
      rw [ihc (fun x hx => h x (by simp [hx]))]
      simp

theorem parseLoop_nil (f : Nat) (flag : Bool) : parseLoop f [] flag = [] := by
  cases f <;> rfl

theorem dropWhile_isEmpty_reverse (l : List Str) (h : l.getLast? ≠ some []) :
    l.reverse.dropWhile (fun x => x.isEmpty) = l.reverse := by
  rcases hrev : l.reverse with _ | ⟨y, ys⟩
  · rfl
  · have hy : y.isEmpty = false := by
      have hyl : l.getLast? = some y := by
        rw [← List.head?_reverse, hrev]
        rfl
      rcases y with _ | ⟨c, t⟩
      · exact absurd hyl h
      · rfl
    rw [List.dropWhile_cons, hy]
    simp

theorem dtb_no_blank (l : List Str) (h : l.getLast? ≠ some []) :
    dropTrailingBlanks l = l := by
  unfold dropTrailingBlanks
  rw [dropWhile_isEmpty_reverse l h, List.reverse_reverse]

theorem dtb_append_blank (l : List Str) (h : l.getLast? ≠ some []) :
    dropTrailingBlanks (l ++ [[]]) = l := by
  unfold dropTrailingBlanks
  rw [List.reverse_append]
  show (List.dropWhile _ ([] :: l.reverse)).reverse = l
  rw [List.dropWhile_cons]
  simp only [List.isEmpty_nil, if_true]
  rw [dropWhile_isEmpty_reverse l h, List.reverse_reverse]

/-! ## Round trip: stepping the parser over one written block -/

theorem star1_eq : star1 = ['*'] := by decide

theorem bySB_len : bySB.length = 13 := by decide

theorem titleParse_core (t ts v : Str) (rest : List Str)
    (h6 : (dlOf ts v).head? ≠ some '*') (h7 : (dlOf ts v).getLast? ≠ some '*')
    (h8 : indexOfSub (dlOf ts v) bySB = (if v = [] then none else some ts.length))
    (hpre : isPre star1 (starLine ts v) = true)
    (hsuf : isSuf star1 (starLine ts v) = true) :
    titleParse t ([] :: (starLine ts v) :: rest) =
      (let dr : Str × List Str :=
        match rest with
        | l :: r =>
          if isPre docPre l && isSuf docSuf l then (trimSufL docSuf (trimPreL docPre l), r)
          else ([], rest)
        | [] => ([], rest)
      (Block.title t ts v dr.1, dr.2)) := by
  have htrim : trimStars (starLine ts v) = dlOf ts v := trimStars_wrap _ h6 h7
  by_cases hv : v = []
  · subst hv
    rw [if_pos rfl] at h8
    have hdl : dlOf ts [] = ts := by unfold dlOf; simp
    rw [hdl] at h8
    unfold titleParse
    simp only [hpre, hsuf, Bool.and_self, if_true, htrim, hdl, h8]
  · rw [if_neg hv] at h8
    have hdl : dlOf ts v = ts ++ (bySB ++ v) := by
      unfold dlOf
      rw [if_neg hv, List.append_assoc]
    have htake : (dlOf ts v).take ts.length = ts := by
      rw [hdl]
      exact List.take_left _ _
    have hdrop : (dlOf ts v).drop (ts.length + bySB.length) = v := by
      rw [hdl, ← List.append_assoc]
      have hlen : (ts ++ bySB).length = ts.length + bySB.length := by simp
      rw [← hlen]
      exact List.drop_left _ _
    unfold titleParse
    simp only [hpre, hsuf, Bool.and_self, if_true, htrim, h8, htake, hdrop]

theorem titleParse_canon (t ts v : Str) (rest : List Str)
    (h6 : (dlOf ts v).head? ≠ some '*') (h7 : (dlOf ts v).getLast? ≠ some '*')
    (h8 : indexOfSub (dlOf ts v) bySB = (if v = [] then none else some ts.length))
    (hr : rest.head? = none ∨ rest.head? = some []) :
    titleParse t ([] :: (starLine ts v) :: rest) = (Block.title t ts v [], rest) := by
  have hpre : isPre star1 (starLine ts v) = true := by
    rw [star1_eq]
    show isPre ['*'] ('*' :: (dlOf ts v ++ ['*'])) = true
    simp [isPre]
  have hsuf : isSuf star1 (starLine ts v) = true := by
    rw [star1_eq]
    show isSuf ['*'] ('*' :: (dlOf ts v ++ ['*'])) = true
    rw [show '*' :: (dlOf ts v ++ ['*']) = ('*' :: dlOf ts v) ++ ['*'] from rfl]
    exact isSuf_append _ _
  rw [titleParse_core t ts v rest h6 h7 h8 hpre hsuf]
  rcases hr with hh | hh
  · have hrest : rest = [] := List.head?_eq_none_iff.mp hh
    subst hrest
    rfl
  · rcases rest with _ | ⟨l0, r0⟩
    · simp at hh
    · have hl0 : l0 = [] := by simpa using hh
      subst hl0
      have hcond : (isPre docPre [] && isSuf docSuf []) = false := by decide
      simp [hcond]

theorem fence3_cons (y : Str) : fence3 ++ y = tick :: tick :: tick :: y := by
  rw [fence3_repl]
  rfl

theorem ne_outWord_of_imgSuf (l : Str) : l ++ imgSuf ≠ outWord := by
  intro he
  have hg := congrArg List.getLast? he
  rw [List.getLast?_append_of_ne_nil _ (by decide : imgSuf ≠ [])] at hg
  exact absurd hg (by decide)

theorem takeWhile_ne_append (cl : List Str) (closing : Str) (rest : List Str)
    (h : ∀ p ∈ cl, p ≠ closing) :
    (cl ++ closing :: rest).takeWhile (fun x => x ≠ closing) = cl := by
  refine takeWhile_append_stop _ cl closing rest ?_ (by simp)
  intro x hx
  simpa using h x hx

theorem dropWhile_ne_append (cl : List Str) (closing : Str) (rest : List Str)
    (h : ∀ p ∈ cl, p ≠ closing) :
    (cl ++ closing :: rest).dropWhile (fun x => x ≠ closing) = closing :: rest := by
  refine dropWhile_append_stop _ cl closing rest ?_ (by simp)
  intro x hx
  simpa using h x hx

theorem annSuf_head (lang : Str) (isImg : Bool) (hhead : lang.head? ≠ some tick) :
    (lang ++ annSuf isImg false).head? ≠ some tick := by
  cases lang with
  | nil =>
    cases isImg <;> simp [annSuf] <;> decide
  | cons c t => simpa using hhead

theorem fenceParse_code (lang cd : Str) (isImg : Bool) (rest : List Str)
    (hhead : lang.head? ≠ some tick)
    (hfilt : indexOfSub lang filtPre = none)
    (hout : isImg = true ∨ (lang ≠ outWord ∧ isSuf imgSuf lang = false))
    (hcd : ∀ p ∈ splitNL cd, p ≠ fence3) :
    fenceParse (fence3 ++ (lang ++ annSuf isImg false)) (splitNL cd ++ fence3 :: rest) =
      (Block.code lang cd isImg false [], rest) := by
  have hbody := takeWhile_ne_append (splitNL cd) fence3 rest hcd
  have hrest2 := dropWhile_ne_append (splitNL cd) fence3 rest hcd
  cases isImg with
  | false =>
    rcases hout with h | ⟨hno, hns⟩
    · simp at h
    have ha : (annSuf false false : Str) = [] := rfl
    rw [ha, List.append_nil]
    have hticks : leadTicks (fence3 ++ lang) = 3 := by
      rw [fence3_repl]
      exact leadTicks_replicate_append 3 _ hhead
    have hinfo : (fence3 ++ lang).drop 3 = lang := by
      rw [fence3_repl]
      exact drop_replicate_append 3 _
    have hnout : (lang = outWord) = False := by simp [hno]
    have hnsuf : (isSuf imgSuf lang = true) = False := by simp [hns]
    unfold fenceParse
    simp only [hticks, fence3_repl.symm, hinfo, hnout, if_false, hnsuf, hfilt,
      hbody, hrest2, List.drop_succ_cons, List.drop_zero, intercalateNL_splitNL]
  | true =>
    have ha : (annSuf true false : Str) = imgSuf := rfl
    rw [ha]
    have hh2 : (lang ++ imgSuf).head? ≠ some tick := by
      have h := annSuf_head lang true hhead
      simpa [annSuf] using h
    have hticks : leadTicks (fence3 ++ (lang ++ imgSuf)) = 3 := by
      rw [fence3_repl]
      exact leadTicks_replicate_append 3 _ hh2
    have hinfo : (fence3 ++ (lang ++ imgSuf)).drop 3 = lang ++ imgSuf := by
      rw [fence3_repl]
      exact drop_replicate_append 3 _
    have hnout : (lang ++ imgSuf = outWord) = False := by
      simp [ne_outWord_of_imgSuf lang]
    have hsuf : isSuf imgSuf (lang ++ imgSuf) = true := isSuf_append _ _
    have htrim : trimSufL imgSuf (lang ++ imgSuf) = lang := trimSufL_append _ _
    unfold fenceParse
    simp only [hticks, fence3_repl.symm, hinfo, hnout, if_false, hsuf, if_true, htrim, hfilt,
      hbody, hrest2, List.drop_succ_cons, List.drop_zero, intercalateNL_splitNL]

theorem fenceParse_output (c : Str) (rest : List Str) (hj : joinNL (outPieces c) = c) :
    fenceParse (fenceFor c ++ outWord) (outPieces c ++ fenceFor c :: rest) =
      (Block.output c, rest) := by
  have hticks : leadTicks (fenceFor c ++ outWord) = (fenceFor c).length := by
    conv_lhs => rw [fenceFor_repl]
    exact leadTicks_replicate_append _ _ (by decide)
  have hclosing : List.replicate (fenceFor c).length tick = fenceFor c := (fenceFor_repl c).symm
  have hinfo : (fenceFor c ++ outWord).drop (fenceFor c).length = outWord := by
    rw [show fenceFor c ++ outWord = List.replicate (fenceFor c).length tick ++ outWord from by
      rw [← fenceFor_repl]]
    exact drop_replicate_append _ _
  have hbody := takeWhile_ne_append (outPieces c) (fenceFor c) rest (outPieces_ne_fence c hj)
  have hrest2 := dropWhile_ne_append (outPieces c) (fenceFor c) rest (outPieces_ne_fence c hj)
  unfold fenceParse
  simp only [hticks, hclosing, hinfo, eq_self_iff_true, if_true, hbody, hrest2,
    List.drop_succ_cons, List.drop_zero, hj]

theorem hashSp_cons : hashSp = '#' :: [' '] := by decide

theorem fence3_list : fence3 = tick :: tick :: [tick] := by decide

theorem step_title (f : Nat) (t ts v d : Str) (rest : List Str)
    (hb : wfB (Block.title t ts v d)) (hr : rest.head? = none ∨ rest.head? = some []) :
    parseLoop (f + 1) (blockLines (Block.title t ts v d) ++ rest) true =
      Block.title t ts v d :: parseLoop f (skipSep rest) false := by
  obtain ⟨h1, h2, h3, h4, h5, h6, h7, h8⟩ := hb
  subst h5
  show parseLoop (f + 1) (titleLine t :: [] :: starLine ts v :: rest) true = _
  have hpre : isPre hashSp (titleLine t) = true := isPre_append hashSp t
  have hdrop : (titleLine t).drop 2 = t := rfl
  have hcanon := titleParse_canon t ts v rest h6 h7 h8 hr
  simp only [parseLoop, hpre, Bool.and_self, eq_self_iff_true, if_true, hdrop, hcanon]

theorem step_code (f : Nat) (flag : Bool) (lang cd : Str) (isImg isSrv : Bool) (fn : Str)
    (rest : List Str) (hb : wfB (Block.code lang cd isImg isSrv fn)) :
    parseLoop (f + 1) (blockLines (Block.code lang cd isImg isSrv fn) ++ rest) flag =
      Block.code lang cd isImg isSrv fn :: parseLoop f (skipSep rest) false := by
  obtain ⟨hsrv, hfn, h1, h2, h3, h4, h5, h6⟩ := hb
  subst hsrv
  subst hfn
  have hcd : ∀ p ∈ splitNL cd, p ≠ fence3 := fun p hp => (h6 p hp).2
  show parseLoop (f + 1)
      ((fence3 ++ (lang ++ annSuf isImg false)) :: ((splitNL cd ++ [fence3]) ++ rest)) flag = _
  rw [show (splitNL cd ++ [fence3]) ++ rest = splitNL cd ++ fence3 :: rest by simp]
  have hb1 : isPre hashSp (fence3 ++ (lang ++ annSuf isImg false)) = false := by
    rw [hashSp_cons, fence3_cons]
    exact isPre_cons_false _ _ _ _ (by decide)
  have hb2 : isPre fence3 (fence3 ++ (lang ++ annSuf isImg false)) = true := isPre_append _ _
  have hcanon := fenceParse_code lang cd isImg rest h3 h4 h5 hcd
  simp only [parseLoop, hb1, Bool.and_false, Bool.false_eq_true, if_false, hb2,
    eq_self_iff_true, if_true, hcanon]

theorem step_output (f : Nat) (flag : Bool) (c : Str) (rest : List Str)
    (hb : wfB (Block.output c)) :
    parseLoop (f + 1) (blockLines (Block.output c) ++ rest) flag =
      Block.output c :: parseLoop f (skipSep rest) false := by
  obtain ⟨h1, h2⟩ := hb
  show parseLoop (f + 1)
      ((fenceFor c ++ outWord) :: ((outPieces c ++ [fenceFor c]) ++ rest)) flag = _
  rw [show (outPieces c ++ [fenceFor c]) ++ rest = outPieces c ++ fenceFor c :: rest by simp]
  have hf3 : fenceFor c ++ outWord = fence3 ++ (List.replicate ((fenceFor c).length - 3) tick
      ++ outWord) := by
    rw [fence3_repl, ← List.append_assoc, ← List.replicate_add]
    have hlen := fence_len_ge3 c
    rw [show 3 + ((fenceFor c).length - 3) = (fenceFor c).length by omega, ← fenceFor_repl]
  have hb1 : isPre hashSp (fenceFor c ++ outWord) = false := by
    rw [hashSp_cons, hf3, fence3_cons]
    exact isPre_cons_false _ _ _ _ (by decide)
  have hb2 : isPre fence3 (fenceFor c ++ outWord) = true := by
    rw [hf3]
    exact isPre_append _ _
  have hcanon := fenceParse_output c rest h1
  simp only [parseLoop, hb1, Bool.and_false, Bool.false_eq_true, if_false, hb2,
    eq_self_iff_true, if_true, hcanon]

theorem step_image (f : Nat) (flag : Bool) (alt fn : Str) (rest : List Str)
    (hb : wfB (Block.imageOutput alt fn)) :
    parseLoop (f + 1) (blockLines (Block.imageOutput alt fn) ++ rest) flag =
      Block.imageOutput alt fn :: parseLoop f (skipSep rest) false := by
  obtain ⟨h1, h2, h3, h4, h5⟩ := hb
  show parseLoop (f + 1) (imageLine alt fn :: rest) flag = _
  have hline : imageLine alt fn = '!' :: ('[' :: (alt ++ ']' :: '(' :: (fn ++ [')']))) := rfl
  have hb1 : isPre hashSp (imageLine alt fn) = false := by
    rw [hashSp_cons, hline]
    exact isPre_cons_false _ _ _ _ (by decide)
  have hb2 : isPre fence3 (imageLine alt fn) = false := by
    rw [fence3_list, hline]
    exact isPre_cons_false _ _ _ _ (by decide)
  have href := parseImageRef_canon alt fn h4 h5
  have hb3 : (isPre bang2 (imageLine alt fn) && !(parseImageRef (imageLine alt fn)).2.isEmpty)
      = true := by
    rw [href]
    have hpre : isPre bang2 (imageLine alt fn) = true := by
      rw [bang2_eq, hline]
      simp [isPre]
    rw [hpre]
    simp [List.isEmpty_iff, h3]
  simp only [parseLoop, hb1, Bool.and_false, Bool.false_eq_true, if_false, hb2, hb3,
    eq_self_iff_true, if_true]
  rw [href]

theorem step_commentary (f : Nat) (flag : Bool) (x : Str) (rest : List Str)
    (hb : wfB (Block.commentary x))
    (hflag : flag = true → isPre hashSp ((splitNL x).headI) = false)
    (hrest : rest = [] ∨ ∃ l2 r2, rest = [] :: l2 :: r2 ∧ lineStops l2 = true) :
    parseLoop (f + 1) (blockLines (Block.commentary x) ++ rest) flag =
      Block.commentary x :: parseLoop f (skipSep rest) false := by
  obtain ⟨hx, hlast, hcl⟩ := hb
  rcases hsp : splitNL x with _ | ⟨p0, ps⟩
  · exact absurd hsp (splitNL_ne_nil x)
  have hstops : ∀ p ∈ splitNL x, (!lineStops p) = true := by
    intro p hp
    rw [(hcl p hp).2]
    rfl
  have hstops0 : lineStops p0 = false := by
    have := (hcl p0 (by rw [hsp]; simp)).2
    exact this
  have hb1 : (flag && isPre hashSp p0) = false := by
    cases flag with
    | false => rfl
    | true =>
      have h := hflag rfl
      rw [hsp] at h
      simp only [List.headI] at h
      rw [h, Bool.and_false]
  have hb2 : isPre fence3 p0 = false := by
    unfold lineStops at hstops0
    exact (Bool.or_eq_false_iff.mp hstops0).1
  have hb3 : (isPre bang2 p0 && !(parseImageRef p0).2.isEmpty) = false := by
    unfold lineStops at hstops0
    exact (Bool.or_eq_false_iff.mp hstops0).2
  have hrun : ∀ (tail : List Str),
      (∀ q ∈ tail, (!lineStops q) = true) →
      ((p0 :: ps) ++ tail).takeWhile (fun p => !lineStops p) = (p0 :: ps) ++ tail ∧
      ((p0 :: ps) ++ tail).dropWhile (fun p => !lineStops p) = [] := by
    intro tail htail
    have hall : ∀ q ∈ (p0 :: ps) ++ tail, (!lineStops q) = true := by
      intro q hq
      rcases List.mem_append.mp hq with hq | hq
      · exact hstops q (by rw [hsp]; exact hq)
      · exact htail q hq
    exact ⟨takeWhile_all _ _ hall, dropWhile_all _ _ hall⟩
  show parseLoop (f + 1) (splitNL x ++ rest) flag = _
  rw [hsp]
  rcases hrest with hrr | ⟨l2, r2, hrr, hl2⟩
  · subst hrr
    obtain ⟨htake, hdrop⟩ := hrun [] (by intro q hq; simp at hq)
    rw [List.append_nil] at htake hdrop
    have htrim : dropTrailingBlanks (p0 :: ps) = p0 :: ps := by
      rw [← hsp]
      exact dtb_no_blank _ hlast
    have hne : (p0 :: ps).isEmpty = false := rfl
    show parseLoop (f + 1) ((p0 :: ps) ++ []) flag = _
    rw [List.append_nil]
    simp only [parseLoop, hb1, Bool.false_eq_true, if_false, hb2, hb3, htake, hdrop, htrim, hne,
      Bool.and_false, List.singleton_append, skipSep]
    rw [← hsp, intercalateNL_splitNL]
  · subst hrr
    have hshape : (p0 :: ps) ++ ([] :: l2 :: r2) = ((p0 :: ps) ++ [[]]) ++ (l2 :: r2) := by simp
    have hall2 : ∀ q ∈ (p0 :: ps) ++ [[]], (!lineStops q) = true := by
      intro q hq
      rcases List.mem_append.mp hq with hq | hq
      · exact hstops q (by rw [hsp]; exact hq)
      · simp only [List.mem_singleton] at hq
        subst hq
        decide
    have hstop2 : (!lineStops l2) = false := by rw [hl2]; rfl
    have htake := takeWhile_append_stop (fun p => !lineStops p) ((p0 :: ps) ++ [[]]) l2 r2
      hall2 hstop2
    have hdrop := dropWhile_append_stop (fun p => !lineStops p) ((p0 :: ps) ++ [[]]) l2 r2
      hall2 hstop2
    have htrim : dropTrailingBlanks ((p0 :: ps) ++ [[]]) = p0 :: ps := by
      rw [← hsp]
      exact dtb_append_blank _ hlast
    have hne : (p0 :: ps).isEmpty = false := rfl
    show parseLoop (f + 1) ((p0 :: ps) ++ ([] :: l2 :: r2)) flag = _
    rw [hshape]
    simp only [List.cons_append] at htake hdrop htrim
    simp only [parseLoop, hb1, Bool.false_eq_true, if_false, hb2, hb3, List.append_eq,
      List.cons_append, htake, hdrop, htrim, hne,
      Bool.and_false, List.singleton_append, skipSep]
    rw [← hsp, intercalateNL_splitNL]
    rfl

/-- A stop-starting well-formed block's first written line stops a commentary
run. -/
theorem stop_head (b : Block) (hs : stopStartB b) (hb : wfB b) :
    lineStops ((blockLines b).headI) = true := by
  cases b with
  | title t ts v d => cases hs
  | commentary x => cases hs
  | code lang cd isImg isSrv fn =>
    show lineStops (fence3 ++ (lang ++ annSuf isImg isSrv)) = true
    exact lineStops_fence _
  | output c =>
    show lineStops (fenceFor c ++ outWord) = true
    rw [fenceFor_repl]
    exact lineStops_fenceN _ (fence_len_ge3 c) _
  | imageOutput alt fn =>
    obtain ⟨h1, h2, h3, h4, h5⟩ := hb
    show lineStops (imageLine alt fn) = true
    exact lineStops_image alt fn h4 h5 h3

/-- A non-title block heading a tail keeps `noTitleHead`. -/
theorem noTitleHead_cons (b : Block) (t : List Block) (h : isTitleB b = false) :
    noTitleHead (b :: t) := by
  cases b with
  | title t2 ts v d => exact absurd h (by simp [isTitleB])
  | commentary x => trivial
  | code lang cd isImg isSrv fn => trivial
  | output c => trivial
  | imageOutput alt fn => trivial

/-- `seqLines` of a nonempty sequence starts with the first block's first
line. -/
theorem seqLines_cons_ex (b2 : Block) (t : List Block) :
    ∃ r2, seqLines (b2 :: t) = (blockLines b2).headI :: r2 := by
  cases hbl : blockLines b2 with
  | nil => exact absurd hbl (blockLines_ne_nil b2)
  | cons q qs =>
    cases t with
    | nil => exact ⟨qs, by simp [seqLines, hbl]⟩
    | cons b3 t3 =>
      refine ⟨qs ++ [] :: seqLines (b3 :: t3), ?_⟩
      show blockLines b2 ++ [] :: seqLines (b3 :: t3) = _
      rw [hbl]
      simp

/-- Each block contributes at least one line to `seqLines`. -/
theorem seqLines_len (bs : List Block) : bs.length ≤ (seqLines bs).length := by
  induction bs with
  | nil => simp [seqLines]
  | cons b t ih =>
    have h1 : 1 ≤ (blockLines b).length := by
      cases hbl : blockLines b with
      | nil => exact absurd hbl (blockLines_ne_nil b)
      | cons q qs => simp
    cases t with
    | nil =>
      show 1 ≤ (blockLines b).length
      exact h1
    | cons b2 t2 =>
      show (b :: b2 :: t2).length ≤ (blockLines b ++ [] :: seqLines (b2 :: t2)).length
      rw [List.length_append]
      simp only [List.length_cons] at ih ⊢
      omega

/-- Parsing the written lines of a well-formed sequence recovers the blocks:
the main induction over the block sequence. -/
theorem parse_seq (bs : List Block) : ∀ (f : Nat) (flag : Bool),
    bs.length < f →
    (∀ b ∈ bs, wfB b) → wfChain bs →
    (flag = true → headOk bs) →
    (flag = false → noTitleHead bs) →
    parseLoop f (seqLines bs) flag = bs := by
  induction bs with
  | nil =>
    intro f flag _ _ _ _ _
    exact parseLoop_nil f flag
  | cons b t ih =>
    intro f flag hf hwf hch hhead hnt
    cases f with
    | zero => exact absurd hf (by omega)
    | succ f =>
      cases t with
      | nil =>
        have hb : wfB b := hwf b (by simp)
        rw [show seqLines [b] = blockLines b ++ ([] : List Str) by simp [seqLines]]
        cases b with
        | title t2 ts v d =>
          cases flag with
          | false => exact (hnt rfl).elim
          | true =>
            rw [step_title f t2 ts v d [] hb (Or.inl rfl)]
            rw [show skipSep [] = [] from rfl, parseLoop_nil]
        | commentary x =>
          rw [step_commentary f flag x [] hb (fun hfl => hhead hfl) (Or.inl rfl)]
          rw [show skipSep [] = [] from rfl, parseLoop_nil]
        | code lang cd isImg isSrv fn =>
          rw [step_code f flag lang cd isImg isSrv fn [] hb]
          rw [show skipSep [] = [] from rfl, parseLoop_nil]
        | output c =>
          rw [step_output f flag c [] hb]
          rw [show skipSep [] = [] from rfl, parseLoop_nil]
        | imageOutput alt fn =>
          rw [step_image f flag alt fn [] hb]
          rw [show skipSep [] = [] from rfl, parseLoop_nil]
      | cons b2 t2 =>
        have hb : wfB b := hwf b (by simp)
        have hsep : sepOk b b2 := hch.1
        have hch2 : wfChain (b2 :: t2) := hch.2
        have hwf2 : ∀ x ∈ b2 :: t2, wfB x := fun x hx => hwf x (by simp [hx])
        have hnt2 : noTitleHead (b2 :: t2) := noTitleHead_cons b2 t2 hsep.1
        have hlen2 : (b2 :: t2).length < f := by
          simp only [List.length_cons] at hf ⊢
          omega
        have hrec : parseLoop f (seqLines (b2 :: t2)) false = b2 :: t2 :=
          ih f false hlen2 hwf2 hch2 (fun h => absurd h (by simp)) (fun _ => hnt2)
        show parseLoop (f + 1) (blockLines b ++ [] :: seqLines (b2 :: t2)) flag = _
        cases b with
        | title t3 ts v d =>
          cases flag with
          | false => exact (hnt rfl).elim
          | true =>
            rw [step_title f t3 ts v d ([] :: seqLines (b2 :: t2)) hb (Or.inr rfl)]
            rw [show skipSep ([] :: seqLines (b2 :: t2)) = seqLines (b2 :: t2) from rfl, hrec]
        | commentary x =>
          obtain ⟨r2, hr2⟩ := seqLines_cons_ex b2 t2
          have hstop : lineStops ((blockLines b2).headI) = true :=
            stop_head b2 (hsep.2 rfl) (hwf2 b2 (by simp))
          rw [step_commentary f flag x ([] :: seqLines (b2 :: t2)) hb (fun hfl => hhead hfl)
            (Or.inr ⟨(blockLines b2).headI, r2, by rw [hr2], hstop⟩)]
          rw [show skipSep ([] :: seqLines (b2 :: t2)) = seqLines (b2 :: t2) from rfl, hrec]
        | code lang cd isImg isSrv fn =>
          rw [step_code f flag lang cd isImg isSrv fn ([] :: seqLines (b2 :: t2)) hb]
          rw [show skipSep ([] :: seqLines (b2 :: t2)) = seqLines (b2 :: t2) from rfl, hrec]
        | output c =>
          rw [step_output f flag c ([] :: seqLines (b2 :: t2)) hb]
          rw [show skipSep ([] :: seqLines (b2 :: t2)) = seqLines (b2 :: t2) from rfl, hrec]
        | imageOutput alt fn =>
          rw [step_image f flag alt fn ([] :: seqLines (b2 :: t2)) hb]
          rw [show skipSep ([] :: seqLines (b2 :: t2)) = seqLines (b2 :: t2) from rfl, hrec]

/-- Round trip on well-formed sequences: parsing the written document yields
the original blocks. -/
theorem parse_write (bs : List Block) (h : wf bs) : Parse (Write bs) = bs := by
  obtain ⟨hwf, hch, hhead⟩ := h
  show parseLoop ((goLines (Write bs)).length + 1) (goLines (Write bs)) true = bs
  rw [write_lines bs hwf]
  exact parse_seq bs ((seqLines bs).length + 1) true
    (Nat.lt_succ_of_le (seqLines_len bs)) hwf hch (fun _ => hhead)
    (fun hc => absurd hc (by simp))

/-- C1: the round-trip law does not hold for every block sequence the
commands can build (the counterexample theorem exhibits one that `note` can
produce); it does hold on the writer-canonical sequences `wf`, where parsing
the written document yields the original blocks and re-writing the parse
reproduces the written text exactly. -/
theorem C1_round_trip (bs : List Block) (h : wf bs) :
    Parse (Write bs) = bs ∧ Write (Parse (Write bs)) = Write bs := by
  have h1 := parse_write bs h
  exact ⟨h1, by rw [h1]⟩

/-- C1 witness: the round trip at a concrete `init`/`note`/`exec` document. -/
theorem C1_round_trip_witness :
    wf exDoc ∧ Parse (Write exDoc) = exDoc ∧ Write (Parse (Write exDoc)) = Write exDoc :=
  ⟨by decide, (C1_round_trip exDoc (by decide)).1, (C1_round_trip exDoc (by decide)).2⟩

/-- C1 counterexample: a document made of a title and a commentary block whose
text is a bare three-tick fence line (as `showboat note` will happily record)
does not survive the round trip: the parser reads the fence line as an
unterminated code fence, not as commentary. -/
theorem C1_round_trip_cex : Parse (Write cexDoc) ≠ cexDoc := by decide

/-- C2: the fence-width law does not hold for all strings `S` (the
counterexample theorem exhibits a non-newline-terminated content); it holds
for every content an output block can carry after writing (newline-terminated
or empty, no carriage-return line ends, i.e. `wfB`), including contents whose
lines begin with one, two, three or more backticks; the writer's fence is one
backtick longer than the longest leading backtick run of any content line,
with a minimum of three. -/
theorem C2_fence_width (c : Str) (hc : wfB (Block.output c)) :
    Parse (Write [Block.output c]) = [Block.output c] ∧
    fenceFor c = List.replicate (max (maxTickRun c + 1) 3) tick := by
  constructor
  · refine parse_write [Block.output c] ⟨?_, trivial, trivial⟩
    intro b hb
    rw [List.mem_singleton] at hb
    rw [hb]
    exact hc
  · unfold fenceFor
    have h : (if maxTickRun c ≥ 3 then maxTickRun c + 1 else 3) = max (maxTickRun c + 1) 3 := by
      split <;> omega
    rw [h]

/-- C2 witness: content whose lines begin with one, two and three backticks
round-trips, and its fence is four backticks wide. -/
theorem C2_fence_width_witness :
    wfB (Block.output c2content) ∧
    Parse (Write [Block.output c2content]) = [Block.output c2content] ∧
    fenceFor c2content = List.replicate (max (maxTickRun c2content + 1) 3) tick :=
  ⟨by decide, (C2_fence_width c2content (by decide)).1, (C2_fence_width c2content (by decide)).2⟩

/-- C2 counterexample: an output block whose content is `a` (no trailing
newline) does not round-trip: the writer runs the closing fence onto the
content's last line, and the parser reads back different content. -/
theorem C2_fence_width_cex :
    Parse (Write [Block.output ("a".data)]) ≠ [Block.output ("a".data)] := by decide

/-- `fenceParse` on an opener whose closing fence never occurs consumes every
remaining line as body and leaves nothing unconsumed. -/
theorem fenceParse_unterminated (w : Nat) (body : List Str)
    (hbody : ∀ p ∈ body, p ≠ List.replicate w tick) :
    fenceParse (List.replicate w tick ++ outWord) body =
      (Block.output (joinNL body), []) := by
  have hticks : leadTicks (List.replicate w tick ++ outWord) = w :=
    leadTicks_replicate_append _ _ (by decide)
  have hinfo : (List.replicate w tick ++ outWord).drop w = outWord := drop_replicate_append _ _
  have htk : body.takeWhile (fun x => x ≠ List.replicate w tick) = body :=
    takeWhile_all _ body (fun x hx => by simp [hbody x hx])
  have hdp : body.dropWhile (fun x => x ≠ List.replicate w tick) = [] :=
    dropWhile_all _ body (fun x hx => by simp [hbody x hx])
  unfold fenceParse
  simp only [hticks, hinfo, eq_self_iff_true, if_true, htk, hdp, List.drop_nil]

/-- C3: parsing an unterminated fence does NOT fail (the parser has no error
path for it; the counterexample theorem shows a concrete unterminated input
parsing to a block list): an `output` fence of any width `W ≥ 3` whose
closing line never occurs consumes every line to end of input as the block's
body, and the parse returns exactly that one block. -/
theorem C3_unterminated_fence (w : Nat) (hw : 3 ≤ w) (body : List Str)
    (hbody : ∀ p ∈ body, p ≠ List.replicate w tick) (f : Nat) (flag : Bool) :
    parseLoop (f + 1) ((List.replicate w tick ++ outWord) :: body) flag =
      [Block.output (joinNL body)] := by
  obtain ⟨n, rfl⟩ : ∃ n, w = n + 3 := ⟨w - 3, by omega⟩
  have hline : List.replicate (n + 3) tick ++ outWord =
      fence3 ++ (List.replicate n tick ++ outWord) := by
    rw [fence3_repl, ← List.append_assoc, ← List.replicate_add]
    congr 2
    omega
  have hb1 : isPre hashSp (List.replicate (n + 3) tick ++ outWord) = false := by
    rw [hline, fence3_list, hashSp_cons]
    exact isPre_cons_false _ _ _ _ (by decide)
  have hb2 : isPre fence3 (List.replicate (n + 3) tick ++ outWord) = true := by
    rw [hline]
    exact isPre_append _ _
  have hfp := fenceParse_unterminated (n + 3) body hbody
  simp only [parseLoop, hb1, Bool.and_false, Bool.false_eq_true, if_false, hb2, if_true, hfp,
    skipSep, parseLoop_nil]

/-- C3 witness: a width-four unterminated output fence over the single line
`x` parses to one output block holding that line. -/
theorem C3_unterminated_fence_witness :
    (3 ≤ 4 ∧ ∀ p ∈ [lineX], p ≠ List.replicate 4 tick) ∧
    parseLoop 1 ((List.replicate 4 tick ++ outWord) :: [lineX]) true =
      [Block.output (joinNL [lineX])] :=
  ⟨⟨by decide, by decide⟩, C3_unterminated_fence 4 (by decide) [lineX] (by decide) 0 true⟩

/-- C3 counterexample: the unterminated-fence input parses to a block list
(one output block holding the rest of the input); no error is reported. -/
theorem C3_unterminated_fence_cex :
    Parse untermText = [Block.output ("x\n".data)] := by decide

/-- C9 counterexample: the empty argument contains no whitespace, quote or
shell metacharacter, yet `shellQuote` does not leave it unquoted: it wraps it
in a pair of single quotes (matching the repository's pinned test). -/
theorem C9_quote_empty_cex :
    (∀ c ∈ ([] : Str), c ∉ metaChars) ∧ shellQuote [] ≠ [] ∧ shellQuote [] = [sq, sq] := by
  have h : shellQuote [] = [sq, sq] := by
    unfold shellQuote
    rw [if_pos (by simp), replaceAll_single_quote]
    rfl
  exact ⟨by simp, by rw [h]; simp, h⟩

end Showboat
